import Mathlib

/-!
# Verification of the dual-subtitles merge engine

Shallow embedding of the subtitle codec (`src/utils/srtParser.ts`), the
master-backbone merge (`mergeSubtitles`, last variant of `src/unnamed/part_008`),
the interval-union merge (`src/services/subtitleMerger.ts`), the candidate
similarity scorer (`calculateSimilarity` in `src/services/microsoftTranslator.ts`),
the batch translator (`src/services/translator.ts`,
`src/services/libretranslate-client.ts`) and the API-key rotation helper
(`src/services/opensubtitles.ts`).

Strings are modelled as Lean `String`/`List Char`; JS numbers holding integer
millisecond values are modelled as `Int`; JS floating point scores are modelled
as exact rationals `ℚ`.  Network calls are abstracted as oracle functions passed
in as parameters; everything else is translated statement by statement from the
TypeScript source.
-/

namespace DualSubs

/-- JS whitespace class (the `\s` character class and `String.prototype.trim`):
ASCII whitespace plus the Unicode space separators, NBSP, BOM and the line
separators. -/
def isJsWs (c : Char) : Bool :=
  c = ' ' || c = '\t' || c = '\n' || c = '\r' || c = '\x0b' || c = '\x0c' ||
  c.toNat = 0xa0 || c.toNat = 0x1680 ||
  (0x2000 ≤ c.toNat && c.toNat ≤ 0x200a) ||
  c.toNat = 0x2028 || c.toNat = 0x2029 || c.toNat = 0x202f || c.toNat = 0x205f ||
  c.toNat = 0x3000 || c.toNat = 0xfeff

/-- `String.prototype.trim`: drop JS whitespace from both ends. -/
def jsTrim (l : List Char) : List Char :=
  ((l.dropWhile isJsWs).reverse.dropWhile isJsWs).reverse

/-- One subtitle cue: the `SubtitleEntry` interface of `src/types`
(`index`, `startTime`, `endTime` in integer milliseconds, `text`). -/
structure SubtitleEntry where
  index : Int
  startTime : Int
  endTime : Int
  text : String
deriving DecidableEq, Repr, Inhabited

/-! ## The SRT codec (`src/utils/srtParser.ts`) -/

/-- Split a list on each `'\n'`, keeping empty pieces —
`String.prototype.split('\n')`. -/
def splitNl (l : List Char) : List (List Char) :=
  l.splitOn '\n'

/-- Chars of a whitespace run that follow its last `'\n'` — `none` when the
run holds no newline.  Used to model the greedy `\s*` of `/\n\s*\n/`. -/
def afterLastNl (run : List Char) : Option (List Char) :=
  let s := run.reverse.takeWhile (fun c => c ≠ '\n')
  if s.length = run.length then none else some s.reverse

/-- Worker for `/\n\s*\n/`-splitting.  At a `'\n'` it reads the maximal
whitespace run that follows; if the run holds another `'\n'` the regex matches
the stretch up to the run's last newline and a block ends there, else the
newline is ordinary block text.  `fuel ≥` remaining length keeps the
recursion structural. -/
def goSplit : Nat → List Char → List Char → List (List Char)
  | _, [], acc => [acc.reverse]
  | 0, l, acc => [acc.reverse ++ l]
  | fuel + 1, c :: rest, acc =>
    if c = '\n' then
      let run := rest.takeWhile isJsWs
      match afterLastNl run with
      | some post => acc.reverse :: goSplit fuel (post ++ rest.drop run.length) []
      | none => goSplit fuel rest (c :: acc)
    else goSplit fuel rest (c :: acc)

/-- `content.split(/\n\s*\n/)`. -/
def splitBlocks (l : List Char) : List (List Char) :=
  goSplit l.length l []

/-- Every newline is immediately followed by a non-whitespace character: such
text contains no `/\n\s*\n/` match, so block splitting leaves it whole. -/
def nlOk : List Char → Bool
  | [] => true
  | c :: rest =>
    (if c = '\n' then
      (match rest with
       | [] => false
       | d :: _ => !isJsWs d)
    else true) && nlOk rest

/-- Decimal value of a digit list (most significant first). -/
def digitsToNat (ds : List Char) : Nat :=
  ds.foldl (fun a c => a * 10 + (c.toNat - 48)) 0

/-- `parseInt(s, 10)`: skip leading whitespace, one optional sign, then the
longest digit prefix; `none` models `NaN`. -/
def jsParseIntDec (l : List Char) : Option Int :=
  let l := l.dropWhile isJsWs
  match l with
  | '-' :: rest =>
    let ds := rest.takeWhile Char.isDigit
    if ds.isEmpty then none else some (-(digitsToNat ds : Int))
  | '+' :: rest =>
    let ds := rest.takeWhile Char.isDigit
    if ds.isEmpty then none else some (digitsToNat ds : Int)
  | _ =>
    let ds := l.takeWhile Char.isDigit
    if ds.isEmpty then none else some (digitsToNat ds : Int)

/-- Read exactly `k` digits. -/
def readDigits : Nat → List Char → Option (Nat × List Char)
  | 0, l => some (0, l)
  | _ + 1, [] => none
  | k + 1, c :: rest =>
    if c.isDigit then
      (readDigits k rest).map (fun p => (p.1 + (c.toNat - 48) * 10 ^ k, p.2))
    else none

/-- Read `HH:MM:SS,mmm` (exactly 2/2/2/3 digits) and give milliseconds. -/
def readTime (l : List Char) : Option (Int × List Char) :=
  match readDigits 2 l with
  | none => none
  | some (h, l) =>
    match l with
    | ':' :: l =>
      match readDigits 2 l with
      | none => none
      | some (m, l) =>
        match l with
        | ':' :: l =>
          match readDigits 2 l with
          | none => none
          | some (s, l) =>
            match l with
            | ',' :: l =>
              match readDigits 3 l with
              | none => none
              | some (ms, l) =>
                some ((h * 3600000 + m * 60000 + s * 1000 + ms : Nat), l)
            | _ => none
        | _ => none
    | _ => none

/-- Try the timestamp regex
`/(\d{2}):(\d{2}):(\d{2}),(\d{3})\s*-->\s*(\d{2}):(\d{2}):(\d{2}),(\d{3})/`
at this position. -/
def matchTimePairAt (l : List Char) : Option (Int × Int) :=
  match readTime l with
  | none => none
  | some (t1, l) =>
    match l.dropWhile isJsWs with
    | '-' :: '-' :: '>' :: l =>
      match readTime (l.dropWhile isJsWs) with
      | none => none
      | some (t2, _) => some (t1, t2)
    | _ => none

/-- First (leftmost) match of the timestamp regex in the line. -/
def findTimestamps : List Char → Option (Int × Int)
  | [] => none
  | c :: rest =>
    match matchTimePairAt (c :: rest) with
    | some r => some r
    | none => findTimestamps rest

/-- One block of `parseSRT`'s loop: trim, split into lines, need ≥ 3 lines,
an integer ordinal line, a matching timecode line; lines 3+ joined by `'\n'`
are the text.  `none` models `continue`. -/
def parseBlock (block : List Char) : Option SubtitleEntry :=
  match splitNl (jsTrim block) with
  | l0 :: l1 :: l2 :: rest =>
    match jsParseIntDec l0 with
    | none => none
    | some idx =>
      match findTimestamps l1 with
      | none => none
      | some (st, en) =>
        some ⟨idx, st, en, String.mk (List.intercalate ['\n'] (l2 :: rest))⟩
  | _ => none

/-- `parseSRT` (`src/utils/srtParser.ts`): trim, split into blocks on blank
lines, parse each block, silently skipping the malformed ones. -/
def parseSRT (content : String) : List SubtitleEntry :=
  (splitBlocks (jsTrim content.data)).filterMap parseBlock

/-- Decimal digits of a natural number, most significant first (`String(n)`
for a non-negative integer).  Fuel-structured so the kernel can evaluate it. -/
def natDigitsAux : Nat → Nat → List Char → List Char
  | 0, _, acc => acc
  | fuel + 1, n, acc =>
    let d := Char.ofNat (48 + n % 10)
    if n < 10 then d :: acc else natDigitsAux fuel (n / 10) (d :: acc)

/-- `String(n)` for a natural number. -/
def natDigits (n : Nat) : List Char :=
  natDigitsAux (n + 1) n []

/-- `String(n)` for a JS integer (possibly negative). -/
def jsNumToString (n : Int) : List Char :=
  if n < 0 then '-' :: natDigits n.natAbs else natDigits n.toNat

/-- `String.prototype.padStart(k, '0')`. -/
def padZero (k : Nat) (l : List Char) : List Char :=
  List.replicate (k - l.length) '0' ++ l

/-- `millisecondsToTimestamp` (`src/utils/srtParser.ts`):
`Math.floor` is `Int.fdiv`, the JS `%` is `Int.tmod` (sign of the dividend). -/
def millisecondsToTimestamp (ms : Int) : List Char :=
  let hours := Int.fdiv ms 3600000
  let minutes := Int.fdiv (Int.tmod ms 3600000) 60000
  let seconds := Int.fdiv (Int.tmod ms 60000) 1000
  let milliseconds := Int.tmod ms 1000
  padZero 2 (jsNumToString hours) ++ ':' ::
  (padZero 2 (jsNumToString minutes) ++ ':' ::
   (padZero 2 (jsNumToString seconds) ++ ',' :: padZero 3 (jsNumToString milliseconds)))

/-- One serialized block: `` `${idx}\n${start} --> ${end}\n${text}\n` ``. -/
def srtBlock (idx : Nat) (e : SubtitleEntry) : List Char :=
  natDigits idx ++ '\n' ::
    (millisecondsToTimestamp e.startTime ++ (' ' :: '-' :: '-' :: '>' :: ' ' :: []) ++
     millisecondsToTimestamp e.endTime) ++ '\n' :: e.text.data ++ ['\n']

/-- `serializeSRT` (`src/utils/srtParser.ts`): blocks renumbered from 1,
joined with `'\n'`. -/
def serializeSRT (entries : List SubtitleEntry) : String :=
  String.mk (List.intercalate ['\n'] (entries.enum.map (fun p => srtBlock (p.1 + 1) p.2)))

/-- The block without its trailing newline: everything `srtBlock` emits before
the final `'\n'`. -/
def srtCore (idx : Nat) (e : SubtitleEntry) : List Char :=
  natDigits idx ++ '\n' ::
    (millisecondsToTimestamp e.startTime ++ (' ' :: '-' :: '-' :: '>' :: ' ' :: []) ++
     millisecondsToTimestamp e.endTime) ++ '\n' :: e.text.data

end DualSubs

namespace DualSubs

/-! ## Text cleaning of the master-backbone merge
(`cleanText` inside the last `mergeSubtitles` of `src/unnamed/part_008`) -/

/-- Drop everything from `l` up to and including the first `close`;
`none` when `close` does not occur. -/
def dropThroughClose (close : Char) (l : List Char) : Option (List Char) :=
  let pre := l.takeWhile (fun c => c ≠ close)
  if pre.length = l.length then none else some (l.drop (pre.length + 1))

/-- `.replace(/<[^>]*>/g, '')` (and likewise for braces): each opener with a
later closer is removed together with everything between; an opener with no
closer stays.  Fuel keeps the recursion structural; `fuel ≥ l.length` is
always enough. -/
def stripDelim (o close : Char) : Nat → List Char → List Char
  | _, [] => []
  | 0, l => l
  | fuel + 1, x :: rest =>
    if x = o then
      match dropThroughClose close rest with
      | some rest2 => stripDelim o close fuel rest2
      | none => x :: stripDelim o close fuel rest
    else x :: stripDelim o close fuel rest

/-- `.replace(/\r\n/g, '\n')`. -/
def replCrLf : List Char → List Char
  | '\r' :: '\n' :: rest => '\n' :: replCrLf rest
  | c :: rest => c :: replCrLf rest
  | [] => []

/-- `.replace(/\r/g, '\n')`. -/
def replCr (l : List Char) : List Char :=
  l.map (fun c => if c = '\r' then '\n' else c)

/-- `.replace(/\n+/g, '\n')`: every maximal newline run becomes one newline. -/
def collapseNl : List Char → List Char
  | [] => []
  | '\n' :: rest =>
    (match collapseNl rest with
     | '\n' :: t => '\n' :: t
     | t => '\n' :: t)
  | c :: rest => c :: collapseNl rest

/-- `cleanText(text, isSecondary)` of the master-backbone `mergeSubtitles`:
strip `<...>` and `{...}` tags, normalise line ends, trim, collapse newline
runs, trim again; secondary text is wrapped in `<i>...</i>`. -/
def cleanTextMS (text : String) (isSecondary : Bool) : String :=
  if text = "" then ""
  else
    let clean := jsTrim (collapseNl (jsTrim (replCr (replCrLf
      (stripDelim '{' '}' text.data.length
        (stripDelim '<' '>' text.data.length text.data))))))
    if isSecondary then String.mk ('<' :: 'i' :: '>' :: clean ++ ['<', '/', 'i', '>'])
    else String.mk clean

/-! ## The master-backbone merge
(last `mergeSubtitles` variant of `src/unnamed/part_008`, lines 618-761) -/

/-- The overlap rule with the 50 ms guard band:
`(entry1.startTime < entry2.endTime - 50) && (entry1.endTime > entry2.startTime + 50)`. -/
def overlapsGuard (e1 e2 : SubtitleEntry) : Bool :=
  (e1.startTime < e2.endTime - 50) && (e1.endTime > e2.startTime + 50)

/-- One master-anchored output row together with the (positional) indices of
the secondary cues its secondary text consumed — the bookkeeping of
`usedIndices2`. -/
structure MasterOut where
  entry : SubtitleEntry
  consumed : List Nat
deriving Repr, DecidableEq

/-- `options.offset || 0` applied to the secondary entries
(`adjustedEntries2`). -/
def applyOffset (offset : Int) (entries2 : List SubtitleEntry) : List SubtitleEntry :=
  if offset ≠ 0 then
    entries2.map (fun e =>
      { e with startTime := e.startTime + offset, endTime := e.endTime + offset })
  else entries2

/-- The master pass: for each master entry with non-empty cleaned text, filter
the not-yet-consumed overlapping secondary entries, join their cleaned texts,
append them after a blank line, and mark them consumed.  Returns the rows (with
their consumed index sets) and the final `usedIndices2`. -/
def processMasters (adjusted : List (Nat × SubtitleEntry)) :
    List SubtitleEntry → List Nat → List MasterOut × List Nat
  | [], used => ([], used)
  | e1 :: rest, used =>
    let text1 := cleanTextMS e1.text false
    if text1 = "" then processMasters adjusted rest used
    else
      let ov := adjusted.filter (fun p => !(used.contains p.1) && overlapsGuard e1 p.2)
      let text2 := if ov.isEmpty then ""
        else String.intercalate " " (ov.map (fun p => cleanTextMS p.2.text true))
      let combined := if text2 = "" then text1 else text1 ++ "\n\n" ++ text2
      let step := processMasters adjusted rest (used ++ ov.map (fun p => p.1))
      (⟨⟨0, e1.startTime, e1.endTime, combined⟩, ov.map (fun p => p.1)⟩ :: step.1, step.2)

/-- The orphan pass: every secondary entry not consumed by any master row
becomes its own entry (italicised) when its cleaned text is non-empty. -/
def orphanPass (adjusted : List (Nat × SubtitleEntry)) (used : List Nat) :
    List SubtitleEntry :=
  (adjusted.filter (fun p => !(used.contains p.1))).filterMap (fun p =>
    let t := cleanTextMS p.2.text true
    if t = "" then none else some ⟨0, p.2.startTime, p.2.endTime, t⟩)

/-- Stable insertion of `x` after every element whose key is `≤ key x`. -/
def insertSorted (key : α → Int) (x : α) : List α → List α
  | [] => [x]
  | y :: ys => if key y ≤ key x then y :: insertSorted key x ys else x :: y :: ys

/-- `Array.prototype.sort` with the numeric comparator `(a, b) => key a - key b`:
a stable sort by the key (the ECMAScript sort is stable, and a stable sort by a
key is unique, so insertion sort is a faithful model). -/
def sortJs (key : α → Int) (l : List α) : List α :=
  l.foldl (fun acc x => insertSorted key x acc) []

/-- `processedEntries.map((entry, idx) => ({...entry, index: idx + 1}))`. -/
def reindex (l : List SubtitleEntry) : List SubtitleEntry :=
  l.enum.map (fun p => { p.2 with index := (p.1 : Int) + 1 })

/-- The merged rows before re-indexing, each tagged `true` for master-anchored
and `false` for orphan: master rows are pushed first, orphans after, then all
are sorted by start time. -/
def mergeTagged (entries1 entries2 : List SubtitleEntry) (offset : Int) :
    List (Bool × SubtitleEntry) :=
  let adjusted := (applyOffset offset entries2).enum
  let step := processMasters adjusted entries1 []
  sortJs (fun p => p.2.startTime)
    (step.1.map (fun o => (true, o.entry)) ++ (orphanPass adjusted step.2).map (fun e => (false, e)))

/-- The entry list produced by the master-backbone `mergeSubtitles` between
parsing and serialization. -/
def mergeCore (entries1 entries2 : List SubtitleEntry) (offset : Int) :
    List SubtitleEntry :=
  reindex ((mergeTagged entries1 entries2 offset).map (fun p => p.2))

/-- The master-backbone `mergeSubtitles` (string to string): parse both sides,
return `''` when either is empty, else merge and serialize. -/
def mergeSubtitlesMS (srt1Content srt2Content : String) (offset : Int) : String :=
  let entries1 := parseSRT srt1Content
  let entries2 := parseSRT srt2Content
  if entries1.length = 0 || entries2.length = 0 then ""
  else serializeSRT (mergeCore entries1 entries2 offset)

/-! ## The earlier master-backbone variant (`src/unnamed/part_011`) -/

/-- `clean.split(/\s+/)`: fields between maximal whitespace runs, with an empty
leading (trailing) field when the string starts (ends) with whitespace, and
`[""]` for the empty string.  Fuel keeps the recursion structural;
`fuel ≥ l.length` is always enough. -/
def splitWsAux : Nat → List Char → List Char → List (List Char)
  | _, [], acc => [acc.reverse]
  | 0, l, acc => [acc.reverse ++ l]
  | fuel + 1, c :: rest, acc =>
    if isJsWs c then acc.reverse :: splitWsAux fuel (rest.dropWhile isJsWs) []
    else splitWsAux fuel rest (c :: acc)

/-- `String.prototype.split(/\s+/)`. -/
def splitWs (l : List Char) : List (List Char) :=
  splitWsAux l.length l []

/-- The word-wrap loop of `processText` (`src/unnamed/part_011`): starting from
`currentLine = words[0]`, append each further word when the line stays within
45 characters, else push the line and start a new one.  Returns the pushed
lines and the final `currentLine`. -/
def wrapAux : List (List Char) → List Char → List (List Char) × List Char
  | [], cur => ([], cur)
  | w :: ws, cur =>
    if cur.length + 1 + w.length ≤ 45 then wrapAux ws (cur ++ ' ' :: w)
    else
      let s := wrapAux ws w
      (cur :: s.1, s.2)

/-- `processText(text, isSecondary)` of the part_011 `mergeSubtitles`: strip
`<...>` and `{...}` tags, normalise line ends, trim, wrap into lines of at most
45 characters joined by `'\n'` (the final `currentLine` is pushed only when
non-empty); secondary text is wrapped in `<i>...</i>`. -/
def processText (text : String) (isSecondary : Bool) : String :=
  if text = "" then ""
  else
    let clean := jsTrim (replCr (replCrLf
      (stripDelim '{' '}' text.data.length
        (stripDelim '<' '>' text.data.length text.data))))
    let words := splitWs clean
    let step := wrapAux words.tail (words.headD [])
    let lines := step.1 ++ (if step.2.isEmpty then [] else [step.2])
    let final := List.intercalate ['\n'] lines
    if isSecondary then String.mk ('<' :: 'i' :: '>' :: final ++ ['<', '/', 'i', '>'])
    else String.mk final

/-- The master pass of the part_011 `mergeSubtitles` (lines 88-123).  Its
overlap filter (lines 97-101) adds every overlapping index to `usedIndices2`
but — unlike the part_008 variant — never consults it, so an already consumed
secondary cue is offered again to every later master cue. -/
def processMasters011 (adjusted : List (Nat × SubtitleEntry)) :
    List SubtitleEntry → List Nat → List MasterOut × List Nat
  | [], used => ([], used)
  | e1 :: rest, used =>
    let text1 := processText e1.text false
    if text1 = "" then processMasters011 adjusted rest used
    else
      let ov := adjusted.filter (fun p => overlapsGuard e1 p.2)
      let text2 := if ov.isEmpty then ""
        else processText (String.intercalate " " (ov.map (fun p => p.2.text))) true
      let combined := if text2 = "" then text1 else text1 ++ "\n\n" ++ text2
      let step := processMasters011 adjusted rest (used ++ ov.map (fun p => p.1))
      (⟨⟨0, e1.startTime, e1.endTime, combined⟩, ov.map (fun p => p.1)⟩ :: step.1, step.2)

/-- The orphan pass of the part_011 `mergeSubtitles` (lines 126-138). -/
def orphanPass011 (adjusted : List (Nat × SubtitleEntry)) (used : List Nat) :
    List SubtitleEntry :=
  (adjusted.filter (fun p => !(used.contains p.1))).filterMap (fun p =>
    let t := processText p.2.text true
    if t = "" then none else some ⟨0, p.2.startTime, p.2.endTime, t⟩)

/-- The entry list produced by the part_011 `mergeSubtitles` between parsing
and serialization: master rows, then orphans, sorted by start time and
renumbered. -/
def mergeCore011 (entries1 entries2 : List SubtitleEntry) (offset : Int) :
    List SubtitleEntry :=
  let adjusted := (applyOffset offset entries2).enum
  let step := processMasters011 adjusted entries1 []
  reindex (sortJs SubtitleEntry.startTime
    (step.1.map MasterOut.entry ++ orphanPass011 adjusted step.2))

/-! ## The interval-union merge (`src/services/subtitleMerger.ts`) -/

/-- JS `Set` insertion: first occurrences survive, in order. -/
def jsSetDedup [DecidableEq α] : List α → List α → List α
  | [], _ => []
  | a :: l, seen => if a ∈ seen then jsSetDedup l seen else a :: jsSetDedup l (a :: seen)

/-- `mergeSubtitles` of `src/services/subtitleMerger.ts`: collect every
boundary time of both tracks, sort, and for each pair of consecutive times
emit one entry holding the texts of the cues covering that segment
(`options.offset || 0` and `options.separator || '\n'` are the two option
fields the function reads). -/
def mergeSubtitlesUnion (srt1Content srt2Content : String) (offset : Int)
    (separator : String) : String :=
  let entries1 := parseSRT srt1Content
  let adjustedEntries2 := (parseSRT srt2Content).map (fun e =>
    { e with startTime := e.startTime + offset, endTime := e.endTime + offset })
  let allTimes := jsSetDedup
    (entries1.flatMap (fun e => [e.startTime, e.endTime]) ++
     adjustedEntries2.flatMap (fun e => [e.startTime, e.endTime])) []
  let sortedTimes := sortJs id allTimes
  let merged := (sortedTimes.zip sortedTimes.tail).foldl (fun acc st =>
    let sub1 := entries1.find? (fun e => e.startTime ≤ st.1 && e.endTime ≥ st.2)
    let sub2 := adjustedEntries2.find? (fun e => e.startTime ≤ st.1 && e.endTime ≥ st.2)
    if sub1.isSome || sub2.isSome then
      let text1 := (sub1.map SubtitleEntry.text).getD ""
      let text2 := (sub2.map SubtitleEntry.text).getD ""
      let combinedText :=
        if text1 ≠ "" && text2 ≠ "" then text1 ++ separator ++ text2
        else if text1 ≠ "" then text1 else text2
      acc ++ [⟨(acc.length : Int) + 1, st.1, st.2, combinedText⟩]
    else acc) ([] : List SubtitleEntry)
  serializeSRT merged

end DualSubs

namespace DualSubs

/-! ## The candidate similarity scorer
(`calculateSimilarity`, `src/services/microsoftTranslator.ts` lines 298-344).
JS floating point is modelled as exact rationals. -/

/-- ASCII case folding (`String.prototype.toLowerCase` restricted to the ASCII
letters that occur in release names). -/
def asciiToLower (c : Char) : Char :=
  if 'A' ≤ c && c ≤ 'Z' then Char.ofNat (c.toNat + 32) else c

def isLowerAlnum (c : Char) : Bool :=
  ('a' ≤ c && c ≤ 'z') || ('0' ≤ c && c ≤ '9')

/-- `.replace(/[^a-z0-9]+/g, ' ')`: every maximal run of other characters
becomes one space. -/
def collapseNonAlnum : List Char → List Char
  | [] => []
  | c :: rest =>
    if isLowerAlnum c then c :: collapseNonAlnum rest
    else
      (match collapseNonAlnum rest with
       | ' ' :: t => ' ' :: t
       | t => ' ' :: t)

/-- `normalize` of `calculateSimilarity`: lowercase, then collapse every
non-alphanumeric run to one space. -/
def normalizeL (l : List Char) : List Char :=
  collapseNonAlnum (l.map asciiToLower)

/-- `String.prototype.includes`. -/
def containsSub (l sub : List Char) : Bool :=
  l.tails.any (fun t => sub.isPrefixOf t)

/-- The mutually-critical release tags checked by the scorer. -/
def criticalTags : List String :=
  ["hdtv", "web dl", "webrip", "bluray", "bdrip", "dvdrip", "1080p", "720p", "2160p", "4k"]

/-- Number of critical tags present in both normalized names. -/
def criticalMatchCount (s1 s2 : List Char) : Nat :=
  (criticalTags.filter (fun tag =>
    containsSub s1 (normalizeL tag.data) && containsSub s2 (normalizeL tag.data))).length

/-- The hard source-type mismatch flag: a tag present on exactly one side
while the two sides carry `hdtv` against `bluray`. -/
def criticalMismatch (s1 s2 : List Char) : Bool :=
  criticalTags.any (fun tag =>
    let has1 := containsSub s1 (normalizeL tag.data)
    let has2 := containsSub s2 (normalizeL tag.data)
    has1 ≠ has2 &&
      ((tag = "hdtv" && containsSub s2 "bluray".data) ||
       (tag = "bluray" && containsSub s2 "hdtv".data)))

/-- `tokenize` of `calculateSimilarity`: split the normalized name on spaces,
keep words longer than 2 characters, as a JS `Set` (first occurrences). -/
def splitSpace (l : List Char) : List (List Char) :=
  l.splitOn ' '

def tokenizeName (s : List Char) : List (List Char) :=
  jsSetDedup ((splitSpace s).filter (fun w => w.length > 2)) []

/-- `calculateSimilarity(str1, str2)`: Jaccard similarity of the token sets,
halved on a critical mismatch, boosted by 0.1 per matching critical tag
otherwise, capped at 1. -/
def calculateSimilarity (str1 str2 : String) : ℚ :=
  let s1 := normalizeL str1.data
  let s2 := normalizeL str2.data
  let matchCount := criticalMatchCount s1 s2
  let mismatch := criticalMismatch s1 s2
  let set1 := tokenizeName s1
  let set2 := tokenizeName s2
  if set1.length = 0 || set2.length = 0 then 0
  else
    let inter := jsSetDedup (set1.filter (fun x => x ∈ set2)) []
    let union := jsSetDedup (set1 ++ set2) []
    let jaccard : ℚ := (inter.length : ℚ) / (union.length : ℚ)
    let jaccard :=
      if mismatch then jaccard * 0.5
      else if matchCount > 0 then jaccard + (matchCount : ℚ) * 0.1
      else jaccard
    min jaccard 1

end DualSubs

namespace DualSubs

/-! ## Well-formedness for the codec round-trip -/

/-- A well-formed text line: non-empty and with no whitespace at either end,
so the block layout of the serialized file survives a re-parse's trimming and
blank-line splitting. -/
def wfLine (l : List Char) : Bool :=
  !l.isEmpty && !isJsWs (l.headD 'a') && !isJsWs (l.getLastD 'a')

/-- A well-formed cue: times inside `[0, 100h)` (so the `HH:MM:SS,mmm` form is
exact) and every text line well-formed. -/
def wfEntry (e : SubtitleEntry) : Bool :=
  decide (0 ≤ e.startTime) && decide (e.startTime < 360000000) &&
  decide (0 ≤ e.endTime) && decide (e.endTime < 360000000) &&
  (splitNl e.text.data).all wfLine

/-- A well-formed cue sequence. -/
def wfSeq (entries : List SubtitleEntry) : Bool :=
  entries.all wfEntry

/-! ## Ordering relations for the merged output -/

/-- The deterministic output order: strictly earlier start, or the same start
with no orphan (`false`) placed before a master-anchored row (`true`). -/
def tieOrder (a b : Bool × SubtitleEntry) : Prop :=
  a.2.startTime < b.2.startTime ∨
    (a.2.startTime = b.2.startTime ∧ (a.1 = true ∨ b.1 = false))

/-! ## Token-level views of the similarity scorer -/

/-- Token set of a filename, as the scorer builds it. -/
def tokensOf (s : String) : List (List Char) :=
  tokenizeName (normalizeL s.data)

/-- Size of the token intersection of two filenames. -/
def interLen (a b : String) : Nat :=
  (jsSetDedup ((tokensOf a).filter (fun x => x ∈ tokensOf b)) []).length

/-- Size of the token union of two filenames. -/
def unionLen (a b : String) : Nat :=
  (jsSetDedup (tokensOf a ++ tokensOf b) []).length

/-! ## The batch translator (`src/services/translator.ts` Google path and
`LibreTranslateClient.translateBatch`, second variant of
`src/services/libretranslate-client.ts`).  Remote calls are abstracted as
oracles indexed by chunk and attempt. -/

/-- Outcome of one remote batch-translation attempt: a result array (the
library returns an array for an array request), an HTTP 429, or another
failure. -/
inductive TrOutcome where
  | ok (ts : List String)
  | throttle
  | fail
deriving Repr, DecidableEq

/-- The `cleanChunk` line filter: blank or digit-only lines are replaced by
`''` before the request. -/
def cleanChunkLine (text : String) : String :=
  let t := jsTrim text.data
  if !t.isEmpty && !t.all Char.isDigit then text else ""

/-- `processChunk(chunk, indices, retries)` of the Google path: ask the oracle
(attempt number `2 - retries`); on success pair the result texts with the
chunk's indices, on 429 retry while retries remain, otherwise fall back to the
original lines and count one error. -/
def processChunk (oracle : Nat → Nat → List String → TrOutcome) (ci : Nat)
    (chunk : List String) (indices : List Nat) :
    Nat → List (Nat × String) × Nat
  | 0 =>
    match oracle ci 2 (chunk.map cleanChunkLine) with
    | .ok ts => (indices.zip ts, 0)
    | .throttle => (indices.zip chunk, 1)
    | .fail => (indices.zip chunk, 1)
  | r + 1 =>
    match oracle ci (2 - (r + 1)) (chunk.map cleanChunkLine) with
    | .ok ts => (indices.zip ts, 0)
    | .throttle => processChunk oracle ci chunk indices r
    | .fail => (indices.zip chunk, 1)

/-- The outcome `processChunk` finally acts on after its 429 retries. -/
def chunkResolved (oracle : Nat → Nat → List String → TrOutcome) (ci : Nat)
    (cleaned : List String) : Nat → TrOutcome
  | 0 => oracle ci 2 cleaned
  | r + 1 =>
    match oracle ci (2 - (r + 1)) cleaned with
    | .throttle => chunkResolved oracle ci cleaned r
    | o => o

/-- The `for (i = 0; i < n; i += k) slice(i, i + k)` chunking.  Fuel keeps the
recursion structural; `fuel ≥ l.length` is always enough. -/
def chunksOfAux (k : Nat) : Nat → List α → List (List α)
  | _, [] => []
  | 0, l => [l]
  | fuel + 1, l => l.take k :: chunksOfAux k fuel (l.drop k)

def chunksOf (k : Nat) (l : List α) : List (List α) :=
  chunksOfAux k l.length l

/-- The chunk of size `k` that holds position `j`. -/
def chunkAt (k : Nat) (texts : List String) (j : Nat) : List String :=
  (texts.drop (k * (j / k))).take k

/-- The Google-fallback path of `TranslatorService.translateBatch` (the
LibreTranslate and DeepL branches unavailable): chunks of `MAX_CHUNK_SIZE = 3`
with indices `i + idx`, each processed with 2 retries, the assignments written
into the pre-allocated `results` array of `texts.length` slots; also the final
`errorCount`. -/
def translateBatchGoogle (oracle : Nat → Nat → List String → TrOutcome)
    (texts : List String) : List (Option String) × Nat :=
  let steps := (chunksOf 3 texts).enum.map (fun p =>
    processChunk oracle p.1 p.2 (List.range' (3 * p.1) p.2.length) 2)
  ((steps.map Prod.fst).flatten.foldl (fun acc a => acc.set a.1 (some a.2))
      (List.replicate texts.length none),
   (steps.map Prod.snd).foldl (· + ·) 0)

/-- Outcome of one whole parallel chunk of `LibreTranslateClient.translateBatch`. -/
inductive BatchOutcome where
  | ok (ts : List String)
  | throw
deriving Repr, DecidableEq

/-- Outcome of one single-line fallback translation. -/
inductive LineOutcome where
  | ok (t : String)
  | throw
deriving Repr, DecidableEq

/-- `LibreTranslateClient.translateBatch` (second variant): chunks of
`CONCURRENT_REQUESTS = 6` translated in parallel and pushed in order; when the
parallel batch throws, each line of the chunk is translated alone, and a line
that throws again pushes its original text. -/
def libreTranslateBatch (batchOracle : Nat → BatchOutcome)
    (lineOracle : Nat → Nat → LineOutcome) (texts : List String) : List String :=
  ((chunksOf 6 texts).enum.map (fun p =>
    match batchOracle p.1 with
    | .ok ts => ts
    | .throw => p.2.enum.map (fun q =>
        match lineOracle p.1 q.1 with
        | .ok t => t
        | .throw => q.2))).flatten

/-- What a Google-path chunk finally holds once its retries are resolved: the
oracle's translations on success, the original chunk lines otherwise. -/
def googleChunkValue (oracle : Nat → Nat → List String → TrOutcome) (i : Nat)
    (c : List String) : List String :=
  match chunkResolved oracle i (c.map cleanChunkLine) 2 with
  | .ok ts => ts
  | .throttle => c
  | .fail => c

/-- What a LibreTranslate chunk finally holds: the parallel batch result, or
the per-line fallback (original text for a line that throws again). -/
def libreChunkValue (batchOracle : Nat → BatchOutcome)
    (lineOracle : Nat → Nat → LineOutcome) (i : Nat) (c : List String) :
    List String :=
  match batchOracle i with
  | .ok ts => ts
  | .throw => c.enum.map (fun q =>
      match lineOracle i q.1 with
      | .ok t => t
      | .throw => q.2)

/-! ## API-key rotation (`OpenSubtitlesClient.executeWithRotation`,
`src/services/opensubtitles.ts` lines 33-85) -/

/-- An error as `executeWithRotation` inspects it: whether
`axios.isAxiosError(error) && error.response`, the HTTP status, and whether a
403 body message includes `'quota'`. -/
structure ApiError where
  isAxiosWithResponse : Bool
  status : Nat
  quotaMessage : Bool
deriving Repr, DecidableEq

/-- The retryable test: 429, 402, a quota 403, or any 5xx. -/
def isRetryableError (e : ApiError) : Bool :=
  e.isAxiosWithResponse &&
    (e.status == 429 || e.status == 402 || (e.status == 403 && e.quotaMessage) ||
     (500 ≤ e.status && e.status < 600))

/-- Outcome of one invocation of the wrapped operation. -/
inductive OpOutcome (T : Type) where
  | ok (t : T)
  | err (e : ApiError)

/-- `executeWithRotation`, with the network abstracted: `op attempt key` is
what the `attempt`-th invocation of `operation(key)` does.  Returns the JS
result (`Except` models a rethrown error, the inner `Option` the `null`
fallback) together with how many times the operation was invoked.  Fuel keeps
the recursion structural; `fuel ≥ keys.length - retryCount` makes it faithful
and the entry point passes `keys.length`. -/
def executeWithRotationAux (keys : List String) (op : Nat → String → OpOutcome T) :
    Nat → Nat → Nat → Except ApiError (Option T) × Nat
  | fuel, keyIndex, retryCount =>
    if keys.length = 0 then (.ok none, 0)
    else if keys.length ≤ retryCount then (.ok none, 0)
    else
      match op retryCount (keys.getD keyIndex "") with
      | .ok t => (.ok (some t), 1)
      | .err e =>
        if isRetryableError e then
          match fuel with
          | f + 1 =>
            let r := executeWithRotationAux keys op f ((keyIndex + 1) % keys.length)
              (retryCount + 1)
            (r.1, r.2 + 1)
          | 0 => (.error e, 1)
        else (.error e, 1)

/-- `executeWithRotation(operation)` starting from the client's initial
`currentKeyIndex = 0` and `retryCount = 0`. -/
def executeWithRotation (keys : List String) (op : Nat → String → OpOutcome T) :
    Except ApiError (Option T) × Nat :=
  executeWithRotationAux keys op keys.length 0 0

end DualSubs

namespace DualSubs

/-! ## Theorems -/

/-- C2: a master cue and a secondary cue are considered overlapping iff
`masterStart < secondaryEnd - 50` and `masterEnd > secondaryStart + 50`, and
for adjacent master cues `[0,1000]`, `[1000,2000]` and one secondary cue
`[995,1005]` the secondary cue is consumed by at most one master cue, never
both. -/
theorem claim_C2 :
    (∀ m s : SubtitleEntry, overlapsGuard m s = true ↔
      (m.startTime < s.endTime - 50 ∧ m.endTime > s.startTime + 50)) ∧
    ((processMasters ([⟨1, 995, 1005, "S"⟩] : List SubtitleEntry).enum
        [⟨1, 0, 1000, "A"⟩, ⟨1, 1000, 2000, "B"⟩] []).1.countP
      (fun o => decide (0 ∈ o.consumed))) ≤ 1 := by
  constructor
  · intro m s
    simp [overlapsGuard, Bool.and_eq_true, decide_eq_true_iff]
  · decide

/-- C3 (counterexample): the interval-union `mergeSubtitles` of
`src/services/subtitleMerger.ts` has no empty-side guard: with an empty master
and one secondary cue it returns the secondary cue as a single-track
passthrough, not an empty result. -/
theorem claim_C3_counterexample :
    mergeSubtitlesUnion "" "1\n00:00:00,000 --> 00:00:01,000\nHi" 0 "\n" =
      "1\n00:00:00,000 --> 00:00:01,000\nHi\n" ∧
    mergeSubtitlesUnion "" "1\n00:00:00,000 --> 00:00:01,000\nHi" 0 "\n" ≠ "" := by
  constructor
  · decide
  · decide

/-- C3 (amended): the master-backbone `mergeSubtitles` (the part_008 variant)
returns the empty string whenever either side parses to an empty cue sequence;
the interval-union variant of `src/services/subtitleMerger.ts` lacks this
guard and passes the non-empty side through. -/
theorem claim_C3_amended (srt1 srt2 : String) (offset : Int)
    (h : parseSRT srt1 = [] ∨ parseSRT srt2 = []) :
    mergeSubtitlesMS srt1 srt2 offset = "" := by
  unfold mergeSubtitlesMS
  rcases h with h | h <;> simp [h]

/-- C3 (witness): the degenerate scenario master = `[]`,
secondary = `[{1,0,1000,"Hi"}]` gives the empty result in the master-backbone
merge. -/
theorem claim_C3_witness :
    mergeSubtitlesMS "" "1\n00:00:00,000 --> 00:00:01,000\nHi" 0 = "" :=
  claim_C3_amended "" "1\n00:00:00,000 --> 00:00:01,000\nHi" 0 (Or.inl (by decide))

/-- C4 (counterexample): the merged output is not always non-overlapping:
two overlapping master cues survive into the output with their overlapping
times. -/
theorem claim_C4_counterexample :
    mergeCore [⟨1, 0, 1000, "A"⟩, ⟨1, 500, 1500, "B"⟩] [⟨1, 5000, 6000, "S"⟩] 0 =
      [⟨1, 0, 1000, "A"⟩, ⟨2, 500, 1500, "B"⟩, ⟨3, 5000, 6000, "<i>S</i>"⟩] ∧
    ((mergeCore [⟨1, 0, 1000, "A"⟩, ⟨1, 500, 1500, "B"⟩]
        [⟨1, 5000, 6000, "S"⟩] 0).getD 1 default).startTime <
      ((mergeCore [⟨1, 0, 1000, "A"⟩, ⟨1, 500, 1500, "B"⟩]
        [⟨1, 5000, 6000, "S"⟩] 0).getD 0 default).endTime := by
  constructor
  · decide
  · decide

/-- C6 (counterexample): `parseSRT` keeps a block whose timecodes give a zero
duration: the cue invariant `endMs > startMs` is not enforced by the codec. -/
theorem claim_C6_counterexample :
    ∃ e ∈ parseSRT "1\n00:00:01,000 --> 00:00:01,000\nHi",
      ¬ e.startTime < e.endTime := by decide

/-- C7: parsing never fails and malformed blocks are skipped locally: the
empty input and inputs whose blocks are all malformed (wrong shape,
non-integer ordinal, unmatchable timecode) parse to `[]`; a well-formed block
surrounded by malformed ones is still parsed; in general a content all of
whose blocks fail parses to `[]`, and every block that parses contributes its
entry to the result. -/
theorem claim_C7 (content : String) :
    parseSRT "" = [] ∧
    parseSRT "hello\nworld\nfoo\n\nnot a number\n00:00:00,000 --> 00:00:01,000\nx\n\n1\nnot a timestamp\ntext\n\n1\n2" = [] ∧
    parseSRT "bad\n\n2\n00:00:00,500 --> 00:00:02,000\nHello\nWorld\n\n1\n2" =
      [⟨2, 500, 2000, "Hello\nWorld"⟩] ∧
    ((∀ b ∈ splitBlocks (jsTrim content.data), parseBlock b = none) →
      parseSRT content = []) ∧
    (∀ b ∈ splitBlocks (jsTrim content.data), ∀ e, parseBlock b = some e →
      e ∈ parseSRT content) := by
  refine ⟨by decide, by decide, by decide, fun h => ?_, fun b hb e he => ?_⟩
  · exact List.filterMap_eq_nil_iff.mpr h
  · exact List.mem_filterMap.mpr ⟨b, hb, he⟩

end DualSubs

namespace DualSubs

/-! ### Consumption in the master pass (C1) -/

theorem forall_lt_succ_iff (p : Nat → Prop) (n : Nat) :
    (∀ j, j < n + 1 → p j) ↔ p 0 ∧ ∀ j, j < n → p (j + 1) := by
  constructor
  · exact fun h => ⟨h 0 (Nat.succ_pos n), fun j hj => h (j + 1) (Nat.succ_lt_succ hj)⟩
  · rintro ⟨h0, h⟩ j hj
    cases j with
    | zero => exact h0
    | succ j' => exact h j' (Nat.lt_of_succ_lt_succ hj)

theorem mem_filter_map_fst (used : List Nat) (adjusted : List (Nat × SubtitleEntry))
    (e1 : SubtitleEntry) (k : Nat) :
    (k ∈ (adjusted.filter (fun p => !(used.contains p.1) && overlapsGuard e1 p.2)).map
        (fun p => p.1)) ↔
      (k ∉ used ∧ ∃ e, (k, e) ∈ adjusted ∧ overlapsGuard e1 e = true) := by
  simp [List.mem_map, List.mem_filter, Bool.and_eq_true]
  tauto

theorem and_not_or_helper (L U E X R : Prop) :
    (L ∧ ¬(U ∨ (¬U ∧ E)) ∧ X ∧ R) ↔ (L ∧ ¬U ∧ X ∧ ¬E ∧ R) := by
  tauto

theorem overlapsGuard_entry_mk (e1 : SubtitleEntry) (idx : Int) (txt : String)
    (x : SubtitleEntry) :
    overlapsGuard ⟨idx, e1.startTime, e1.endTime, txt⟩ x = overlapsGuard e1 x := by
  simp [overlapsGuard]

/-- The invariant of the consumed-set bookkeeping: a secondary index `k` is in
the consumed set of the `i`-th emitted master row iff it was not consumed
before the whole pass, the row's times overlap it, and no earlier emitted row's
times overlap it. -/
theorem processMasters_consumed (adjusted : List (Nat × SubtitleEntry)) :
    ∀ (ms : List SubtitleEntry) (used : List Nat) (i k : Nat),
      k ∈ (((processMasters adjusted ms used).1).getD i ⟨default, []⟩).consumed ↔
        (i < ((processMasters adjusted ms used).1).length ∧
         k ∉ used ∧
         (∃ e, (k, e) ∈ adjusted ∧
            overlapsGuard (((processMasters adjusted ms used).1).getD i ⟨default, []⟩).entry e
              = true) ∧
         ∀ j, j < i →
           ¬ ∃ e, (k, e) ∈ adjusted ∧
              overlapsGuard (((processMasters adjusted ms used).1).getD j ⟨default, []⟩).entry e
                = true) := by
  intro ms
  induction ms with
  | nil =>
    intro used i k
    simp [processMasters]
  | cons e1 rest ih =>
    intro used i k
    by_cases h1 : cleanTextMS e1.text false = ""
    · simp only [processMasters, h1, if_true, if_pos rfl]
      exact ih used i k
    · simp only [processMasters, if_neg h1]
      cases i with
      | zero =>
        simp only [List.getD_cons_zero, List.length_cons, overlapsGuard_entry_mk]
        rw [mem_filter_map_fst]
        exact ⟨fun ⟨hu, hex⟩ => ⟨Nat.succ_pos _, hu, hex,
            fun j hj => absurd hj (Nat.not_lt_zero j)⟩,
          fun ⟨_, hu, hex, _⟩ => ⟨hu, hex⟩⟩
      | succ i' =>
        simp only [List.getD_cons_succ, List.length_cons, Nat.succ_lt_succ_iff]
        rw [ih, forall_lt_succ_iff]
        simp only [List.getD_cons_zero, List.getD_cons_succ, overlapsGuard_entry_mk,
          List.mem_append, mem_filter_map_fst]
        exact and_not_or_helper _ _ _ _ _

/-- C1 (amended): in the part_008 master-backbone merge — whose overlap filter
checks `usedIndices2` — a secondary cue is consumed by at most one master row,
namely the first one (in iteration order of the masters with non-empty cleaned
text, the order in which rows are emitted) whose times satisfy the overlap rule
against it and against no earlier row; in particular no secondary index is in
the consumed set of two different rows.  The part_011 variant omits the
used-check from its filter, and there the property fails (counterexample). -/
theorem claim_C1_amended (entries1 entries2 : List SubtitleEntry) (offset : Int) :
    ∀ i k,
      (k ∈ (((processMasters (applyOffset offset entries2).enum entries1 []).1).getD i
            ⟨default, []⟩).consumed ↔
        i < ((processMasters (applyOffset offset entries2).enum entries1 []).1).length ∧
        (∃ e, (k, e) ∈ (applyOffset offset entries2).enum ∧
           overlapsGuard
             (((processMasters (applyOffset offset entries2).enum entries1 []).1).getD i
               ⟨default, []⟩).entry e = true) ∧
        ∀ j, j < i →
          ¬ ∃ e, (k, e) ∈ (applyOffset offset entries2).enum ∧
             overlapsGuard
               (((processMasters (applyOffset offset entries2).enum entries1 []).1).getD j
                 ⟨default, []⟩).entry e = true) ∧
      ∀ i2,
        k ∈ (((processMasters (applyOffset offset entries2).enum entries1 []).1).getD i
              ⟨default, []⟩).consumed →
        k ∈ (((processMasters (applyOffset offset entries2).enum entries1 []).1).getD i2
              ⟨default, []⟩).consumed →
        i = i2 := by
  intro i k
  have hchar := fun i => processMasters_consumed (applyOffset offset entries2).enum
    entries1 [] i k
  constructor
  · rw [hchar i]
    simp
  · intro i2 h1 h2
    rcases Nat.lt_trichotomy i i2 with hlt | heq | hgt
    · obtain ⟨-, -, -, hall⟩ := (hchar i2).mp h2
      obtain ⟨-, -, hex, -⟩ := (hchar i).mp h1
      exact absurd hex (hall i hlt)
    · exact heq
    · obtain ⟨-, -, -, hall⟩ := (hchar i).mp h1
      obtain ⟨-, -, hex, -⟩ := (hchar i2).mp h2
      exact absurd hex (hall i2 hgt)

/-- C1 counterexample: in the part_011 `mergeSubtitles` cited by the claim a
consumed secondary cue IS offered again to later master cues.  The secondary
cue `[0, 3000]` overlaps both masters `[0, 1000]` and `[1000, 2000]`: its
positional index 0 ends up in the consumed set of both emitted rows, and its
italicised text appears in the secondary text of both output cues. -/
theorem claim_C1_counterexample :
    (0 ∈ (((processMasters011 [(0, ⟨1, 0, 3000, "S"⟩)]
        [⟨1, 0, 1000, "A"⟩, ⟨2, 1000, 2000, "B"⟩] []).1.getD 0 ⟨default, []⟩).consumed) ∧
     0 ∈ (((processMasters011 [(0, ⟨1, 0, 3000, "S"⟩)]
        [⟨1, 0, 1000, "A"⟩, ⟨2, 1000, 2000, "B"⟩] []).1.getD 1 ⟨default, []⟩).consumed)) ∧
    mergeCore011 [⟨1, 0, 1000, "A"⟩, ⟨2, 1000, 2000, "B"⟩] [⟨1, 0, 3000, "S"⟩] 0 =
      [⟨1, 0, 1000, "A\n\n<i>S</i>"⟩, ⟨2, 1000, 2000, "B\n\n<i>S</i>"⟩] := by
  decide

end DualSubs

namespace DualSubs

/-! ### Ordering and renumbering of the merged output (C4) -/

theorem pairwise_of_all {R : α → α → Prop} (h : ∀ a b, R a b) :
    ∀ l : List α, List.Pairwise R l
  | [] => List.Pairwise.nil
  | _ :: l => List.Pairwise.cons (fun b _ => h _ b) (pairwise_of_all h l)

theorem mem_insertSorted (key : α → Int) (x a : α) :
    ∀ l : List α, (a ∈ insertSorted key x l ↔ a = x ∨ a ∈ l) := by
  intro l
  induction l with
  | nil => simp [insertSorted]
  | cons y ys ih =>
    simp only [insertSorted]
    split
    · simp only [List.mem_cons, ih]
      tauto
    · simp only [List.mem_cons]

theorem insertSorted_good (key : α → Int) (T : α → α → Prop)
    (hT : ∀ a b, key a ≠ key b → T a b) (x : α) :
    ∀ l : List α, List.Pairwise (fun a b => key a ≤ key b) l → List.Pairwise T l →
      (∀ y ∈ l, T y x) →
      List.Pairwise (fun a b => key a ≤ key b) (insertSorted key x l) ∧
      List.Pairwise T (insertSorted key x l) := by
  intro l
  induction l with
  | nil => simp [insertSorted]
  | cons y ys ih =>
    intro hs hp hx
    rw [List.pairwise_cons] at hs hp
    simp only [insertSorted]
    split
    · rename_i hle
      obtain ⟨ihs, ihp⟩ := ih hs.2 hp.2 (fun z hz => hx z (List.mem_cons_of_mem y hz))
      constructor
      · refine List.Pairwise.cons (fun z hz => ?_) ihs
        rcases (mem_insertSorted key x z ys).mp hz with rfl | hz'
        · exact hle
        · exact hs.1 z hz'
      · refine List.Pairwise.cons (fun z hz => ?_) ihp
        rcases (mem_insertSorted key x z ys).mp hz with rfl | hz'
        · exact hx y (List.mem_cons_self y ys)
        · exact hp.1 z hz'
    · rename_i hgt
      push_neg at hgt
      constructor
      · refine List.Pairwise.cons (fun z hz => ?_) (List.pairwise_cons.mpr hs)
        rcases List.mem_cons.mp hz with rfl | hz'
        · exact le_of_lt hgt
        · exact le_trans (le_of_lt hgt) (hs.1 z hz')
      · refine List.Pairwise.cons (fun z hz => ?_) (List.pairwise_cons.mpr hp)
        rcases List.mem_cons.mp hz with rfl | hz'
        · exact hT x z (ne_of_lt hgt)
        · exact hT x z (ne_of_lt (lt_of_lt_of_le hgt (hs.1 z hz')))

theorem sortJs_aux_good (key : α → Int) (T : α → α → Prop)
    (hT : ∀ a b, key a ≠ key b → T a b) :
    ∀ (l acc : List α), List.Pairwise (fun a b => key a ≤ key b) acc →
      List.Pairwise T acc → List.Pairwise T l →
      (∀ y ∈ acc, ∀ x ∈ l, T y x) →
      List.Pairwise (fun a b => key a ≤ key b)
          (l.foldl (fun acc x => insertSorted key x acc) acc) ∧
        List.Pairwise T (l.foldl (fun acc x => insertSorted key x acc) acc) := by
  intro l
  induction l with
  | nil => intro acc hs hp _ _; exact ⟨hs, hp⟩
  | cons x xs ih =>
    intro acc hs hp hl hcross
    rw [List.pairwise_cons] at hl
    obtain ⟨hs', hp'⟩ := insertSorted_good key T hT x acc hs hp
      (fun y hy => hcross y hy x (List.mem_cons_self x xs))
    refine ih (insertSorted key x acc) hs' hp' hl.2 (fun y hy x' hx' => ?_)
    rcases (mem_insertSorted key x y acc).mp hy with rfl | hy'
    · exact hl.1 x' hx'
    · exact hcross y hy' x' (List.mem_cons_of_mem x hx')

theorem sortJs_good (key : α → Int) (T : α → α → Prop)
    (hT : ∀ a b, key a ≠ key b → T a b) (l : List α) (hl : List.Pairwise T l) :
    List.Pairwise (fun a b => key a ≤ key b) (sortJs key l) ∧
      List.Pairwise T (sortJs key l) := by
  exact sortJs_aux_good key T hT l [] List.Pairwise.nil List.Pairwise.nil hl
    (fun y hy => absurd hy (List.not_mem_nil y))


theorem enumFrom_map_index (l : List SubtitleEntry) :
    ∀ s : Nat,
      (((List.enumFrom s l).map (fun p => { p.2 with index := (p.1 : Int) + 1 })).map
          SubtitleEntry.index) =
        (List.range' (s + 1) l.length).map (fun k => (k : Int)) := by
  induction l with
  | nil => intro s; rfl
  | cons e es ih =>
    intro s
    simp only [List.enumFrom, List.map_cons, List.length_cons, List.range']
    exact congrArg _ (ih (s + 1))

theorem reindex_map_index (l : List SubtitleEntry) :
    (reindex l).map SubtitleEntry.index =
      (List.range' 1 l.length).map (fun k => (k : Int)) := by
  simpa [reindex, List.enum] using enumFrom_map_index l 0

theorem enumFrom_map_startTime (l : List SubtitleEntry) :
    ∀ s : Nat,
      (((List.enumFrom s l).map (fun p => { p.2 with index := (p.1 : Int) + 1 })).map
          SubtitleEntry.startTime) = l.map SubtitleEntry.startTime := by
  induction l with
  | nil => intro s; rfl
  | cons e es ih =>
    intro s
    simp only [List.enumFrom, List.map_cons]
    exact congrArg _ (ih (s + 1))

theorem reindex_map_startTime (l : List SubtitleEntry) :
    (reindex l).map SubtitleEntry.startTime = l.map SubtitleEntry.startTime := by
  simpa [reindex, List.enum] using enumFrom_map_startTime l 0

theorem reindex_length (l : List SubtitleEntry) : (reindex l).length = l.length := by
  simp [reindex]

theorem mergeTagged_ordered (entries1 entries2 : List SubtitleEntry) (offset : Int) :
    List.Pairwise (fun a b => a.2.startTime ≤ b.2.startTime)
        (mergeTagged entries1 entries2 offset) ∧
      List.Pairwise (fun a b => a.2.startTime = b.2.startTime → (a.1 = true ∨ b.1 = false))
        (mergeTagged entries1 entries2 offset) := by
  have hpw : List.Pairwise
      (fun (a b : Bool × SubtitleEntry) =>
        a.2.startTime = b.2.startTime → (a.1 = true ∨ b.1 = false))
      (((processMasters ((applyOffset offset entries2).enum) entries1 []).1.map
          (fun o => (true, o.entry))) ++
        ((orphanPass ((applyOffset offset entries2).enum)
            (processMasters ((applyOffset offset entries2).enum) entries1 []).2).map
          (fun e => (false, e)))) := by
    apply List.pairwise_append.mpr
    refine ⟨?_, ?_, ?_⟩
    · exact List.pairwise_map.mpr (pairwise_of_all (fun a b _ => Or.inl rfl) _)
    · exact List.pairwise_map.mpr (pairwise_of_all (fun a b _ => Or.inr rfl) _)
    · intro a ha b hb
      obtain ⟨x, -, rfl⟩ := List.mem_map.mp ha
      exact fun _ => Or.inl rfl
  exact sortJs_good (fun p : Bool × SubtitleEntry => p.2.startTime)
    (fun a b => a.2.startTime = b.2.startTime → (a.1 = true ∨ b.1 = false))
    (fun a b hne heq => absurd heq hne) _ hpw

/-- C4 (amended): the merged output is sorted by start time ascending, ties
are broken with master-anchored rows before orphan rows (the ECMAScript sort is
stable and masters are pushed first), and output indices are renumbered
sequentially 1..n; output cues may however overlap in time (see the
counterexample). -/
theorem claim_C4_amended (entries1 entries2 : List SubtitleEntry) (offset : Int) :
    List.Pairwise tieOrder (mergeTagged entries1 entries2 offset) ∧
    mergeCore entries1 entries2 offset =
      reindex ((mergeTagged entries1 entries2 offset).map (fun p => p.2)) ∧
    List.Pairwise (fun a b => a.startTime ≤ b.startTime)
      (mergeCore entries1 entries2 offset) ∧
    (mergeCore entries1 entries2 offset).map SubtitleEntry.index =
      (List.range' 1 (mergeCore entries1 entries2 offset).length).map (fun k => (k : Int)) := by
  obtain ⟨hle, htie⟩ := mergeTagged_ordered entries1 entries2 offset
  refine ⟨?_, rfl, ?_, ?_⟩
  · refine (hle.and htie).imp ?_
    rintro a b ⟨h1, h2⟩
    rcases lt_or_eq_of_le h1 with hlt | heq
    · exact Or.inl hlt
    · exact Or.inr ⟨heq, h2 heq⟩
  · have h1 : List.Pairwise (fun a b => a ≤ b)
        ((mergeCore entries1 entries2 offset).map SubtitleEntry.startTime) := by
      show List.Pairwise (fun a b => a ≤ b)
        ((reindex ((mergeTagged entries1 entries2 offset).map (fun p => p.2))).map
          SubtitleEntry.startTime)
      rw [reindex_map_startTime, List.map_map]
      exact List.pairwise_map.mpr hle
    exact List.pairwise_map.mp h1
  · have hlen : (mergeCore entries1 entries2 offset).length =
        ((mergeTagged entries1 entries2 offset).map (fun p => p.2)).length :=
      reindex_length _
    rw [hlen]
    exact reindex_map_index _

end DualSubs

namespace DualSubs

/-! ### The similarity scorer (C8) -/

theorem mem_jsSetDedup [DecidableEq α] (x : α) :
    ∀ (l seen : List α), x ∈ jsSetDedup l seen ↔ (x ∈ l ∧ x ∉ seen) := by
  intro l
  induction l with
  | nil => intro seen; simp [jsSetDedup]
  | cons a as ih =>
    intro seen
    simp only [jsSetDedup]
    split
    · rename_i hmem
      rw [ih]
      simp only [List.mem_cons]
      constructor
      · rintro ⟨hx, hns⟩; exact ⟨Or.inr hx, hns⟩
      · rintro ⟨hor, hns⟩
        rcases hor with rfl | hx
        · exact absurd hmem hns
        · exact ⟨hx, hns⟩
    · rename_i hmem
      simp only [List.mem_cons, ih, List.mem_cons]
      constructor
      · rintro (rfl | ⟨hx, hns⟩)
        · exact ⟨Or.inl rfl, hmem⟩
        · exact ⟨Or.inr hx, fun h => hns (Or.inr h)⟩
      · rintro ⟨rfl | hx, hns⟩
        · exact Or.inl rfl
        · by_cases hax : x = a
          · exact Or.inl hax
          · exact Or.inr ⟨hx, fun h => (by
              rcases h with h1 | h2
              · exact hax h1
              · exact hns h2)⟩

theorem nodup_jsSetDedup [DecidableEq α] :
    ∀ (l seen : List α), (jsSetDedup l seen).Nodup := by
  intro l
  induction l with
  | nil => intro seen; simp [jsSetDedup]
  | cons a as ih =>
    intro seen
    simp only [jsSetDedup]
    split
    · exact ih seen
    · refine List.Nodup.cons (fun hmem => ?_) (ih (a :: seen))
      rw [mem_jsSetDedup] at hmem
      exact hmem.2 (List.mem_cons_self a seen)

theorem length_le_of_nodup_subset {α : Type} [DecidableEq α] (l1 l2 : List α)
    (h1 : l1.Nodup) (hsub : l1 ⊆ l2) : l1.length ≤ l2.length := by
  calc l1.length = l1.toFinset.card := by rw [List.toFinset_card_of_nodup h1]
    _ ≤ l2.toFinset.card := Finset.card_le_card (fun x hx => by
        rw [List.mem_toFinset] at *; exact hsub hx)
    _ ≤ l2.length := l2.toFinset_card_le

theorem interLen_le_unionLen (a b : String) : interLen a b ≤ unionLen a b := by
  apply length_le_of_nodup_subset _ _ (nodup_jsSetDedup _ _)
  intro x hx
  rw [mem_jsSetDedup] at hx ⊢
  refine ⟨List.mem_append.mpr (Or.inl (List.mem_of_mem_filter hx.1)), List.not_mem_nil x⟩

theorem unionLen_pos (a b : String) (ha : tokensOf a ≠ []) : 0 < unionLen a b := by
  unfold unionLen
  rcases h : tokensOf a with _ | ⟨t, ts⟩
  · exact absurd h ha
  · have : t ∈ jsSetDedup (tokensOf a ++ tokensOf b) [] := by
      rw [mem_jsSetDedup]
      exact ⟨List.mem_append.mpr (Or.inl (h ▸ List.mem_cons_self t ts)), List.not_mem_nil t⟩
    refine List.length_pos.mpr (fun hnil => ?_)
    rw [h, hnil] at this
    exact List.not_mem_nil t this


theorem calculateSimilarity_eq (a b : String) :
    calculateSimilarity a b =
      if (decide ((tokensOf a).length = 0) || decide ((tokensOf b).length = 0)) = true then 0
      else
        min
          (if criticalMismatch (normalizeL a.data) (normalizeL b.data) = true then
            ((interLen a b : ℚ) / (unionLen a b : ℚ)) * 0.5
          else if criticalMatchCount (normalizeL a.data) (normalizeL b.data) > 0 then
            (interLen a b : ℚ) / (unionLen a b : ℚ) +
              (criticalMatchCount (normalizeL a.data) (normalizeL b.data) : ℚ) * 0.1
          else (interLen a b : ℚ) / (unionLen a b : ℚ)) 1 := by
  simp only [calculateSimilarity, tokensOf, interLen, unionLen]


theorem two_le_length_of_two_mem {α : Type} (l : List α) (a b : α)
    (ha : a ∈ l) (hb : b ∈ l) (hne : a ≠ b) : 2 ≤ l.length := by
  induction l with
  | nil => exact absurd ha (List.not_mem_nil a)
  | cons x xs ih =>
    rcases List.mem_cons.mp ha with rfl | ha'
    · rcases List.mem_cons.mp hb with rfl | hb'
      · exact absurd rfl hne
      · have := List.length_pos.mpr (List.ne_nil_of_mem hb')
        simp only [List.length_cons]
        omega
    · have := List.length_pos.mpr (List.ne_nil_of_mem ha')
      simp only [List.length_cons]
      omega

/-- C8: with equal token-overlap baselines (same intersection and union
sizes), a pair of filenames that both carry the `bluray` disc-rip tag and a
matching `1080p` resolution tag (and no broadcast tag) scores strictly higher
than a pair where one side carries `bluray` and the other `hdtv`: the mismatch
halves the Jaccard baseline, each matching critical tag adds 0.1, and the
score is capped at 1 (see `calculateSimilarity_eq`). -/
theorem claim_C8 (a b c d : String)
    (hba : containsSub (normalizeL a.data) ("bluray".data) = true)
    (hbb : containsSub (normalizeL b.data) ("bluray".data) = true)
    (hra : containsSub (normalizeL a.data) ("1080p".data) = true)
    (hrb : containsSub (normalizeL b.data) ("1080p".data) = true)
    (hnha : containsSub (normalizeL a.data) ("hdtv".data) = false)
    (hnhb : containsSub (normalizeL b.data) ("hdtv".data) = false)
    (hcb : containsSub (normalizeL c.data) ("bluray".data) = true)
    (hndb : containsSub (normalizeL d.data) ("bluray".data) = false)
    (hdh : containsSub (normalizeL d.data) ("hdtv".data) = true)
    (ha : tokensOf a ≠ []) (hb : tokensOf b ≠ [])
    (hc : tokensOf c ≠ []) (hd : tokensOf d ≠ [])
    (hinter : interLen a b = interLen c d)
    (hunion : unionLen a b = unionLen c d) :
    calculateSimilarity c d < calculateSimilarity a b := by
  have e1 : normalizeL ("bluray".data) = "bluray".data := by decide
  have e2 : normalizeL ("1080p".data) = "1080p".data := by decide
  have e3 : normalizeL ("hdtv".data) = "hdtv".data := by decide
  have hmcA : 2 ≤ criticalMatchCount (normalizeL a.data) (normalizeL b.data) := by
    apply two_le_length_of_two_mem _ ("bluray" : String) ("1080p" : String)
    · exact List.mem_filter.mpr ⟨by decide, by simp [e1, hba, hbb]⟩
    · exact List.mem_filter.mpr ⟨by decide, by simp [e2, hra, hrb]⟩
    · decide
  have hmmAB : criticalMismatch (normalizeL a.data) (normalizeL b.data) = false := by
    simp [criticalMismatch, criticalTags, e1, e3, hba, hbb, hnha, hnhb]
  have hmmCD : criticalMismatch (normalizeL c.data) (normalizeL d.data) = true := by
    apply List.any_eq_true.mpr
    refine ⟨("bluray" : String), by decide, ?_⟩
    simp [e1, e3, hcb, hndb, hdh]
  have hU : 0 < unionLen a b := unionLen_pos a b ha
  have hIU : interLen a b ≤ unionLen a b := interLen_le_unionLen a b
  have hj0 : (0 : ℚ) ≤ (interLen a b : ℚ) / (unionLen a b : ℚ) :=
    div_nonneg (by positivity) (by positivity)
  have hj1 : (interLen a b : ℚ) / (unionLen a b : ℚ) ≤ 1 := by
    rw [div_le_one (by exact_mod_cast hU)]
    exact_mod_cast hIU
  rw [calculateSimilarity_eq a b, calculateSimilarity_eq c d]
  rw [← hinter, ← hunion]
  have hlen : ∀ s : String, tokensOf s ≠ [] → (decide ((tokensOf s).length = 0)) = false := by
    intro s hs
    simp [List.length_eq_zero, hs]
  simp only [hlen a ha, hlen b hb, hlen c hc, hlen d hd, Bool.or_self, hmmAB, hmmCD,
    Bool.false_eq_true, if_false, if_true]
  have hmcpos : criticalMatchCount (normalizeL a.data) (normalizeL b.data) > 0 := by omega
  rw [if_pos hmcpos]
  have hmcq : (2 : ℚ) ≤ (criticalMatchCount (normalizeL a.data) (normalizeL b.data) : ℚ) := by
    exact_mod_cast hmcA
  set j : ℚ := (interLen a b : ℚ) / (unionLen a b : ℚ) with hjdef
  set mc : ℚ := (criticalMatchCount (normalizeL a.data) (normalizeL b.data) : ℚ) with hmcdef
  have h1 : min (j * 0.5) 1 = j * 0.5 := min_eq_left (by linarith)
  rw [h1]
  apply lt_min
  · linarith
  · linarith


/-- C8 (witness): concrete filenames with equal 3/5 Jaccard baselines. -/
theorem claim_C8_witness :
    calculateSimilarity "aaa.bbb.ccc.BluRay" "aaa.bbb.ccc.HDTV" <
      calculateSimilarity "aaa.bbb.ccc.1080p.BluRay" "aaa.1080p.BluRay" :=
  claim_C8 "aaa.bbb.ccc.1080p.BluRay" "aaa.1080p.BluRay"
    "aaa.bbb.ccc.BluRay" "aaa.bbb.ccc.HDTV"
    (by decide) (by decide) (by decide) (by decide) (by decide) (by decide)
    (by decide) (by decide) (by decide) (by decide) (by decide) (by decide)
    (by decide) (by decide) (by decide)

end DualSubs

namespace DualSubs

/-! ### Key rotation (C10) -/

theorem executeWithRotationAux_calls_le {T : Type} (keys : List String)
    (op : Nat → String → OpOutcome T) :
    ∀ (fuel ki rc : Nat), (executeWithRotationAux keys op fuel ki rc).2 ≤ keys.length - rc := by
  intro fuel
  induction fuel with
  | zero =>
    intro ki rc
    rw [executeWithRotationAux]
    split
    · simp
    · split
      · simp
      · rename_i h0 hrc
        match hop : op rc (keys.getD ki "") with
        | .ok t => simp [hop]; omega
        | .err e =>
          simp only [hop]
          split <;> simp <;> omega
  | succ f ih =>
    intro ki rc
    rw [executeWithRotationAux]
    split
    · simp
    · split
      · simp
      · rename_i h0 hrc
        match hop : op rc (keys.getD ki "") with
        | .ok t => simp [hop]; omega
        | .err e =>
          simp only [hop]
          split
          · have := ih ((ki + 1) % keys.length) (rc + 1)
            simp only []
            omega
          · simp; omega


theorem executeWithRotationAux_exhaust {T : Type} (keys : List String)
    (op : Nat → String → OpOutcome T) :
    ∀ (fuel rc ki : Nat), ki = rc % keys.length → rc ≤ keys.length →
      keys.length - rc ≤ fuel →
      (∀ i, rc ≤ i → i < keys.length →
        ∃ e, op i (keys.getD i "") = .err e ∧ isRetryableError e = true) →
      executeWithRotationAux keys op fuel ki rc = (.ok none, keys.length - rc) := by
  intro fuel
  induction fuel with
  | zero =>
    intro rc ki hki hrc hfuel hall
    have hrceq : rc = keys.length := by omega
    rw [executeWithRotationAux]
    split
    · rename_i h0; simp [h0, hrceq]
    · rw [if_pos (by omega)]
      simp [hrceq]
  | succ f ih =>
    intro rc ki hki hrc hfuel hall
    rw [executeWithRotationAux]
    split
    · rename_i h0; simp [h0]
    · split
      · rename_i h0 hge
        have : rc = keys.length := by omega
        simp [this]
      · rename_i h0 hlt
        have hrclt : rc < keys.length := by omega
        have hkieq : ki = rc := by
          rw [hki, Nat.mod_eq_of_lt hrclt]
        obtain ⟨e, hop, hret⟩ := hall rc le_rfl hrclt
        rw [hkieq, hop]
        simp only [hret, if_true, if_pos rfl]
        rw [ih (rc + 1) ((rc + 1) % keys.length) rfl (by omega) (by omega)
          (fun i hi hilen => hall i (by omega) hilen)]
        simp
        omega


/-- C10: bounded key-rotation retry terminates: the wrapped operation is
invoked at most `keys.length` times; with zero keys, or after a retryable
error (429, 402, quota 403 or 5xx) on every key, the result is the null
fallback (after exactly `keys.length` invocations in the second case); a
non-retryable error on the first attempt is rethrown after a single
invocation, without rotating. -/
theorem claim_C10 {T : Type} (keys : List String) (op : Nat → String → OpOutcome T) :
    (executeWithRotation keys op).2 ≤ keys.length ∧
    (keys = [] → executeWithRotation keys op = (.ok none, 0)) ∧
    ((∀ i, i < keys.length →
        ∃ e, op i (keys.getD i "") = .err e ∧ isRetryableError e = true) →
      executeWithRotation keys op = (.ok none, keys.length)) ∧
    (∀ e, keys ≠ [] → op 0 (keys.getD 0 "") = .err e → isRetryableError e = false →
      executeWithRotation keys op = (.error e, 1)) := by
  refine ⟨?_, ?_, ?_, ?_⟩
  · have := executeWithRotationAux_calls_le keys op keys.length 0 0
    unfold executeWithRotation
    omega
  · intro hk
    unfold executeWithRotation
    rw [executeWithRotationAux]
    simp [hk]
  · intro hall
    have := executeWithRotationAux_exhaust keys op keys.length 0 0
      (by simp) (Nat.zero_le _) (by omega) (fun i _ hi => hall i hi)
    simpa [executeWithRotation] using this
  · intro e hk hop hret
    unfold executeWithRotation
    rw [executeWithRotationAux]
    rw [if_neg (by simpa using fun h => hk (List.length_eq_zero.mp h))]
    rw [if_neg (by
      intro hle
      exact hk (List.length_eq_zero.mp (Nat.le_zero.mp hle)))]
    rw [hop]
    simp [hret]

end DualSubs

namespace DualSubs

/-! ### Chunked batch translation (C9) -/

theorem chunksOfAux_eq (k : Nat) (hk : 1 ≤ k) :
    ∀ (fuel : Nat) (l : List α), l.length ≤ fuel → chunksOfAux k fuel l = chunksOf k l := by
  intro fuel
  induction fuel using Nat.strong_induction_on with
  | _ fuel ih =>
    intro l hl
    match fuel, l with
    | 0, [] => rfl
    | f + 1, [] => rfl
    | 0, a :: as => simp at hl
    | f + 1, a :: as =>
      show (a :: as).take k :: chunksOfAux k f ((a :: as).drop k) = chunksOf k (a :: as)
      have hl' : as.length + 1 ≤ f + 1 := by simpa using hl
      have hdrop : ((a :: as).drop k).length ≤ f := by
        simp only [List.length_drop, List.length_cons]
        omega
      rw [ih f (Nat.lt_succ_self f) _ hdrop]
      show _ = chunksOfAux k (as.length + 1) (a :: as)
      show ((a :: as).take k :: chunksOf k ((a :: as).drop k) : List (List α)) =
        (a :: as).take k :: chunksOfAux k as.length ((a :: as).drop k)
      rw [ih as.length (by omega) _ (by
        simp only [List.length_drop, List.length_cons]
        omega)]

theorem chunksOf_cons (k : Nat) (hk : 1 ≤ k) (a : α) (as : List α) :
    chunksOf k (a :: as) = (a :: as).take k :: chunksOf k ((a :: as).drop k) := by
  show chunksOfAux k (as.length + 1) (a :: as) = _
  show (a :: as).take k :: chunksOfAux k as.length ((a :: as).drop k) = _
  rw [chunksOfAux_eq k hk as.length _ (by
    simp only [List.length_drop, List.length_cons]
    omega)]


theorem flatten_chunks_get (k : Nat) (hk : 1 ≤ k) {β : Type}
    (f : Nat → List String → List β) :
    ∀ (n : Nat) (texts : List String) (s : Nat), texts.length ≤ n →
      (∀ p ∈ List.enumFrom s (chunksOf k texts), (f p.1 p.2).length = p.2.length) →
      ((((List.enumFrom s (chunksOf k texts)).map (fun p => f p.1 p.2)).flatten.length
          = texts.length) ∧
       ∀ j, j < texts.length →
         ((List.enumFrom s (chunksOf k texts)).map (fun p => f p.1 p.2)).flatten[j]? =
           (f (s + j / k) ((texts.drop (k * (j / k))).take k))[j % k]?) := by
  intro n
  induction n with
  | zero =>
    intro texts s hn _
    have : texts = [] := List.length_eq_zero.mp (Nat.le_zero.mp hn)
    subst this
    exact ⟨rfl, fun j hj => absurd hj (Nat.not_lt_zero j)⟩
  | succ n ih =>
    intro texts s hn hf
    match texts with
    | [] => exact ⟨rfl, fun j hj => absurd hj (Nat.not_lt_zero j)⟩
    | a :: as =>
      rw [chunksOf_cons k hk] at hf ⊢
      have hhead : (f s ((a :: as).take k)).length = ((a :: as).take k).length :=
        hf (s, (a :: as).take k) (List.mem_cons_self _ _)
      have hlen0 : ((a :: as).take k).length = min k (a :: as).length :=
        List.length_take k (a :: as)
      have hdroplen : ((a :: as).drop k).length = (a :: as).length - k :=
        List.length_drop k (a :: as)
      have hrest : ((a :: as).drop k).length ≤ n := by
        rw [hdroplen]
        simp only [List.length_cons] at hn ⊢
        omega
      obtain ⟨ihlen, ihget⟩ := ih ((a :: as).drop k) (s + 1) hrest
        (fun p hp => hf p (List.mem_cons_of_mem _ hp))
      have hflat :
          ((List.enumFrom s ((a :: as).take k :: chunksOf k ((a :: as).drop k))).map
            (fun p => f p.1 p.2)).flatten =
          f s ((a :: as).take k) ++
            ((List.enumFrom (s + 1) (chunksOf k ((a :: as).drop k))).map
              (fun p => f p.1 p.2)).flatten := rfl
      rw [hflat]
      constructor
      · rw [List.length_append, hhead, ihlen, hlen0, hdroplen]
        simp only [List.length_cons]
        omega
      · intro j hj
        by_cases hjk : j < k
        · have hjin : j < (f s ((a :: as).take k)).length := by
            rw [hhead, hlen0]
            simp only [List.length_cons] at hj ⊢
            omega
          rw [List.getElem?_append_left hjin]
          rw [Nat.div_eq_of_lt hjk, Nat.mod_eq_of_lt hjk, Nat.mul_zero, Nat.add_zero,
            List.drop_zero]
        · push_neg at hjk
          have hklen : (f s ((a :: as).take k)).length = k := by
            rw [hhead, hlen0]
            simp only [List.length_cons] at hj ⊢
            omega
          rw [List.getElem?_append_right (by rw [hklen]; exact hjk)]
          rw [hklen]
          have hjrest : j - k < ((a :: as).drop k).length := by
            rw [hdroplen]
            simp only [List.length_cons] at hj ⊢
            omega
          rw [ihget (j - k) hjrest]
          have hdiv : j / k = (j - k) / k + 1 := Nat.div_eq_sub_div (by omega) hjk
          have hmod : j % k = (j - k) % k := Nat.mod_eq_sub_mod hjk
          have e1 : s + 1 + (j - k) / k = s + j / k := by omega
          have e2 : k + k * ((j - k) / k) = k * (j / k) := by rw [hdiv]; ring
          rw [List.drop_drop, ← hmod, e1, e2]
  

theorem chunk_getElem (k : Nat) (hk : 1 ≤ k) (texts : List String) (j : Nat) :
    ((texts.drop (k * (j / k))).take k)[j % k]? = texts[j]? := by
  rw [List.getElem?_take, if_pos (Nat.mod_lt j hk), List.getElem?_drop]
  congr 1
  exact Nat.div_add_mod j k

theorem mem_enumFrom_chunksOf (k : Nat) (hk : 1 ≤ k) :
    ∀ (n : Nat) (texts : List String) (s : Nat), texts.length ≤ n →
      ∀ p ∈ List.enumFrom s (chunksOf k texts),
        s ≤ p.1 ∧ p.2 = (texts.drop (k * (p.1 - s))).take k := by
  intro n
  induction n with
  | zero =>
    intro texts s hn p hp
    have : texts = [] := List.length_eq_zero.mp (Nat.le_zero.mp hn)
    subst this
    exact absurd hp (List.not_mem_nil p)
  | succ n ih =>
    intro texts s hn p hp
    match texts with
    | [] => exact absurd hp (List.not_mem_nil p)
    | a :: as =>
      rw [chunksOf_cons k hk] at hp
      rcases List.mem_cons.mp hp with rfl | hp'
      · refine ⟨le_rfl, ?_⟩
        simp
      · have hrest : ((a :: as).drop k).length ≤ n := by
          simp only [List.length_drop, List.length_cons] at *
          omega
        obtain ⟨hs, he⟩ := ih ((a :: as).drop k) (s + 1) hrest p hp'
        refine ⟨by omega, ?_⟩
        rw [he, List.drop_drop]
        congr 2
        have : p.1 - s = (p.1 - (s + 1)) + 1 := by omega
        rw [this]
        ring


theorem foldl_set_length (A : List (Nat × String)) :
    ∀ acc : List (Option String),
      (A.foldl (fun a q => a.set q.1 (some q.2)) acc).length = acc.length := by
  induction A with
  | nil => intro acc; rfl
  | cons q A ih =>
    intro acc
    show (A.foldl (fun a q => a.set q.1 (some q.2)) (acc.set q.1 (some q.2))).length = _
    rw [ih, List.length_set]

theorem zip_range_fold_getElem :
    ∀ (vs : List String) (s : Nat) (acc : List (Option String)) (i : Nat),
      s + vs.length ≤ acc.length →
      (((List.range' s vs.length).zip vs).foldl (fun a q => a.set q.1 (some q.2)) acc)[i]? =
        if s ≤ i ∧ i < s + vs.length then (vs[i - s]?).map some else acc[i]? := by
  intro vs
  induction vs with
  | nil =>
    intro s acc i hb
    rw [if_neg (by simp only [List.length_nil]; omega)]
    rfl
  | cons v vs ih =>
    intro s acc i hb
    simp only [List.length_cons] at hb ⊢
    rw [List.range'_succ]
    show (((List.range' (s + 1) vs.length).zip vs).foldl
        (fun a q => a.set q.1 (some q.2)) (acc.set s (some v)))[i]? = _
    rw [ih (s + 1) (acc.set s (some v)) i (by rw [List.length_set]; omega)]
    by_cases h1 : s + 1 ≤ i ∧ i < s + 1 + vs.length
    · rw [if_pos h1, if_pos (by omega)]
      have : i - s = (i - (s + 1)) + 1 := by omega
      rw [this, List.getElem?_cons_succ]
    · rw [if_neg h1]
      by_cases h2 : i = s
      · subst h2
        rw [if_pos (by omega)]
        rw [List.getElem?_set_eq_of_lt (some v) (by omega)]
        simp
      · rw [if_neg (by omega)]
        rw [List.getElem?_set_ne (fun h => h2 h.symm)]


theorem google_fold_getElem (f : Nat → List String → List String) :
    ∀ (n : Nat) (texts : List String) (s : Nat) (acc : List (Option String)),
      texts.length ≤ n →
      (∀ p ∈ List.enumFrom s (chunksOf 3 texts), (f p.1 p.2).length = p.2.length) →
      3 * s + texts.length ≤ acc.length →
      ((((List.enumFrom s (chunksOf 3 texts)).map
          (fun p => (List.range' (3 * p.1) p.2.length).zip (f p.1 p.2))).flatten.foldl
          (fun a q => a.set q.1 (some q.2)) acc).length = acc.length ∧
       (∀ j, j < 3 * s ∨ 3 * s + texts.length ≤ j →
          (((List.enumFrom s (chunksOf 3 texts)).map
            (fun p => (List.range' (3 * p.1) p.2.length).zip (f p.1 p.2))).flatten.foldl
            (fun a q => a.set q.1 (some q.2)) acc)[j]? = acc[j]?) ∧
       (∀ j, j < texts.length →
          (((List.enumFrom s (chunksOf 3 texts)).map
            (fun p => (List.range' (3 * p.1) p.2.length).zip (f p.1 p.2))).flatten.foldl
            (fun a q => a.set q.1 (some q.2)) acc)[3 * s + j]? =
            ((f (s + j / 3) ((texts.drop (3 * (j / 3))).take 3))[j % 3]?).map some)) := by
  intro n
  induction n with
  | zero =>
    intro texts s acc hn hf hb
    have : texts = [] := List.length_eq_zero.mp (Nat.le_zero.mp hn)
    subst this
    exact ⟨rfl, fun j _ => rfl, fun j hj => absurd hj (Nat.not_lt_zero j)⟩
  | succ n ih =>
    intro texts s acc hn hf hb
    match texts with
    | [] => exact ⟨rfl, fun j _ => rfl, fun j hj => absurd hj (Nat.not_lt_zero j)⟩
    | a :: as =>
      rw [chunksOf_cons 3 (by omega)] at hf ⊢
      have hhead : (f s ((a :: as).take 3)).length = ((a :: as).take 3).length :=
        hf (s, (a :: as).take 3) (List.mem_cons_self _ _)
      have hlen0 : ((a :: as).take 3).length = min 3 (a :: as).length :=
        List.length_take 3 (a :: as)
      have hL : (a :: as).length = as.length + 1 := rfl
      -- one unfolding step of the enum/map/flatten/foldl
      have hunf : ∀ acc' : List (Option String),
          (((List.enumFrom s ((a :: as).take 3 :: chunksOf 3 ((a :: as).drop 3))).map
            (fun p => (List.range' (3 * p.1) p.2.length).zip (f p.1 p.2))).flatten.foldl
            (fun a q => a.set q.1 (some q.2)) acc') =
          (((List.enumFrom (s + 1) (chunksOf 3 ((a :: as).drop 3))).map
            (fun p => (List.range' (3 * p.1) p.2.length).zip (f p.1 p.2))).flatten.foldl
            (fun a q => a.set q.1 (some q.2))
            (((List.range' (3 * s) ((a :: as).take 3).length).zip
              (f s ((a :: as).take 3))).foldl (fun a q => a.set q.1 (some q.2)) acc')) := by
        intro acc'
        rw [show ((List.enumFrom s ((a :: as).take 3 :: chunksOf 3 ((a :: as).drop 3))).map
            (fun p => (List.range' (3 * p.1) p.2.length).zip (f p.1 p.2))) =
          ((List.range' (3 * s) ((a :: as).take 3).length).zip (f s ((a :: as).take 3))) ::
            ((List.enumFrom (s + 1) (chunksOf 3 ((a :: as).drop 3))).map
              (fun p => (List.range' (3 * p.1) p.2.length).zip (f p.1 p.2))) from rfl]
        rw [List.flatten_cons, List.foldl_append]
      rw [hunf]
      -- the fold of the first chunk
      rw [← hhead]
      have hzipB := fun i => zip_range_fold_getElem (f s ((a :: as).take 3)) (3 * s) acc i
        (by rw [hhead, hlen0]; omega)
      have hBlen : (((List.range' (3 * s) (f s ((a :: as).take 3)).length).zip
          (f s ((a :: as).take 3))).foldl (fun a q => a.set q.1 (some q.2)) acc).length =
          acc.length := foldl_set_length _ acc
      set B := ((List.range' (3 * s) (f s ((a :: as).take 3)).length).zip
          (f s ((a :: as).take 3))).foldl (fun a q => a.set q.1 (some q.2)) acc with hBdef
      by_cases hsmall : (a :: as).drop 3 = []
      · have hlen3 : (a :: as).length ≤ 3 := by
          rw [← List.drop_eq_nil_iff]
          exact hsmall
        rw [hsmall]
        have hfl : (f s ((a :: as).take 3)).length = (a :: as).length := by
          rw [hhead, hlen0]; omega
        refine ⟨hBlen, ?_, ?_⟩
        · intro j hj
          show B[j]? = acc[j]?
          rw [hzipB j, if_neg (by rw [hfl]; omega)]
        · intro j hj
          have hj3 : j < 3 := by omega
          show B[3 * s + j]? = _
          rw [hzipB (3 * s + j), if_pos (by rw [hfl]; omega)]
          rw [Nat.add_sub_cancel_left, Nat.div_eq_of_lt hj3, Nat.mod_eq_of_lt hj3,
            Nat.mul_zero, Nat.add_zero, List.drop_zero]
      · have hlen4 : 3 < (a :: as).length := by
          by_contra hcon
          exact hsmall (List.drop_eq_nil_iff.mpr (by omega))
        have hfl : (f s ((a :: as).take 3)).length = 3 := by
          rw [hhead, hlen0]; omega
        obtain ⟨ihlen, ihout, ihval⟩ := ih ((a :: as).drop 3) (s + 1) B
          (by rw [List.length_drop]; omega)
          (fun p hp => hf p (List.mem_cons_of_mem _ hp))
          (by rw [hBlen, List.length_drop]; omega)
        refine ⟨ihlen.trans hBlen, ?_, ?_⟩
        · intro j hj
          rw [ihout j (by rw [List.length_drop]; omega)]
          rw [hzipB j, if_neg (by rw [hfl]; omega)]
        · intro j hj
          by_cases hj3 : j < 3
          · rw [ihout (3 * s + j) (by omega)]
            rw [hzipB (3 * s + j), if_pos (by rw [hfl]; omega)]
            rw [Nat.add_sub_cancel_left, Nat.div_eq_of_lt hj3, Nat.mod_eq_of_lt hj3,
              Nat.mul_zero, Nat.add_zero, List.drop_zero]
          · push_neg at hj3
            have hpos : 3 * s + j = 3 * (s + 1) + (j - 3) := by omega
            rw [hpos, ihval (j - 3) (by rw [List.length_drop]; omega)]
            rw [List.drop_drop]
            have e1 : s + 1 + (j - 3) / 3 = s + j / 3 := by omega
            have e2 : (j - 3) % 3 = j % 3 := by omega
            have e3 : 3 + 3 * ((j - 3) / 3) = 3 * (j / 3) := by omega
            rw [e1, e2, e3]


theorem processChunk_eq (oracle : Nat → Nat → List String → TrOutcome) (ci : Nat)
    (chunk : List String) (indices : List Nat) :
    ∀ retries, processChunk oracle ci chunk indices retries =
      match chunkResolved oracle ci (chunk.map cleanChunkLine) retries with
      | .ok ts => (indices.zip ts, 0)
      | .throttle => (indices.zip chunk, 1)
      | .fail => (indices.zip chunk, 1) := by
  intro retries
  induction retries with
  | zero =>
    cases h : oracle ci 2 (chunk.map cleanChunkLine) <;>
      simp [processChunk, chunkResolved, h]
  | succ r ih =>
    cases h : oracle ci (1 - r) (chunk.map cleanChunkLine) <;>
      simp [processChunk, chunkResolved, h, ih]

theorem chunkResolved_ok (oracle : Nat → Nat → List String → TrOutcome) (ci : Nat)
    (cleaned : List String) (ts : List String) :
    ∀ retries, chunkResolved oracle ci cleaned retries = .ok ts →
      ∃ att, oracle ci att cleaned = .ok ts := by
  intro retries
  induction retries with
  | zero =>
    intro h
    exact ⟨2, h⟩
  | succ r ih =>
    intro h
    rw [chunkResolved] at h
    revert h
    cases ho : oracle ci (2 - (r + 1)) cleaned with
    | ok ts' => intro h; cases h; exact ⟨2 - (r + 1), ho⟩
    | throttle => intro h; exact ih h
    | fail => intro h; cases h

end DualSubs

namespace DualSubs

/-- C9: batch translation preserves length and positional order with per-line
fallback.  For the Google path (chunks of 3, two 429-retries each): the result
array has one slot per input line, a chunk whose retries resolve to a
successful array puts translation `i` at position `i`, and a chunk that fails
permanently puts the original input text back at each of its positions.  For
`LibreTranslateClient.translateBatch` (chunks of 6): output length equals
input length, a successful parallel chunk is copied positionally, and a line
whose chunk and individual retry both throw keeps its original text at its
own position. -/
theorem claim_C9
    (oracle : Nat → Nat → List String → TrOutcome)
    (batchOracle : Nat → BatchOutcome) (lineOracle : Nat → Nat → LineOutcome)
    (texts : List String)
    (hlen : ∀ ci att cleaned ts, oracle ci att cleaned = .ok ts → ts.length = cleaned.length)
    (hblen : ∀ ci ts, batchOracle ci = .ok ts →
      ts.length = ((texts.drop (6 * ci)).take 6).length) :
    (translateBatchGoogle oracle texts).1.length = texts.length ∧
    (∀ j, j < texts.length →
      (∀ ts, chunkResolved oracle (j / 3)
          (((texts.drop (3 * (j / 3))).take 3).map cleanChunkLine) 2 = .ok ts →
        (translateBatchGoogle oracle texts).1[j]? = (ts[j % 3]?).map some) ∧
      ((chunkResolved oracle (j / 3)
          (((texts.drop (3 * (j / 3))).take 3).map cleanChunkLine) 2 = .throttle ∨
        chunkResolved oracle (j / 3)
          (((texts.drop (3 * (j / 3))).take 3).map cleanChunkLine) 2 = .fail) →
        (translateBatchGoogle oracle texts).1[j]? = (texts[j]?).map some)) ∧
    (libreTranslateBatch batchOracle lineOracle texts).length = texts.length ∧
    (∀ j, j < texts.length →
      (∀ ts, batchOracle (j / 6) = .ok ts →
        (libreTranslateBatch batchOracle lineOracle texts)[j]? = ts[j % 6]?) ∧
      (batchOracle (j / 6) = .throw → lineOracle (j / 6) (j % 6) = .throw →
        (libreTranslateBatch batchOracle lineOracle texts)[j]? = texts[j]?)) := by
  have hfg : ∀ p ∈ List.enumFrom 0 (chunksOf 3 texts),
      (googleChunkValue oracle p.1 p.2).length = p.2.length := by
    intro p _
    unfold googleChunkValue
    cases hres : chunkResolved oracle p.1 (p.2.map cleanChunkLine) 2 with
    | ok ts =>
      obtain ⟨att, hatt⟩ := chunkResolved_ok oracle p.1 _ ts 2 hres
      rw [hlen p.1 att _ ts hatt, List.length_map]
    | throttle => rfl
    | fail => rfl
  obtain ⟨hglen, hgout, hgval⟩ := google_fold_getElem (googleChunkValue oracle)
    texts.length texts 0 (List.replicate texts.length none) le_rfl hfg (by simp)
  have hgoog : (translateBatchGoogle oracle texts).1 =
      (((List.enumFrom 0 (chunksOf 3 texts)).map
        (fun p => (List.range' (3 * p.1) p.2.length).zip
          (googleChunkValue oracle p.1 p.2))).flatten.foldl
        (fun a q => a.set q.1 (some q.2)) (List.replicate texts.length none)) := by
    show ((((chunksOf 3 texts).enum.map (fun p =>
        processChunk oracle p.1 p.2 (List.range' (3 * p.1) p.2.length) 2)).map
          Prod.fst).flatten.foldl (fun a q => a.set q.1 (some q.2))
        (List.replicate texts.length none)) = _
    rw [List.map_map]
    congr 1
    congr 1
    apply List.map_congr_left
    intro p _
    show (processChunk oracle p.1 p.2 (List.range' (3 * p.1) p.2.length) 2).1 = _
    rw [processChunk_eq]
    unfold googleChunkValue
    cases chunkResolved oracle p.1 (p.2.map cleanChunkLine) 2 <;> rfl
  have hfl : ∀ p ∈ List.enumFrom 0 (chunksOf 6 texts),
      (libreChunkValue batchOracle lineOracle p.1 p.2).length = p.2.length := by
    intro p hp
    obtain ⟨-, hchunk⟩ := mem_enumFrom_chunksOf 6 (by omega) texts.length texts 0
      le_rfl p hp
    unfold libreChunkValue
    cases hb : batchOracle p.1 with
    | ok ts =>
      rw [hblen p.1 ts hb, hchunk, Nat.sub_zero]
    | throw =>
      rw [List.length_map, List.enum_length]
  obtain ⟨hllen, hlval⟩ := flatten_chunks_get 6 (by omega)
    (libreChunkValue batchOracle lineOracle) texts.length texts 0 le_rfl hfl
  have hlib : libreTranslateBatch batchOracle lineOracle texts =
      ((List.enumFrom 0 (chunksOf 6 texts)).map
        (fun p => libreChunkValue batchOracle lineOracle p.1 p.2)).flatten := rfl
  refine ⟨?_, ?_, ?_, ?_⟩
  · rw [hgoog, hglen, List.length_replicate]
  · intro j hj
    have hval := hgval j hj
    simp only [Nat.mul_zero, Nat.zero_add] at hval
    constructor
    · intro ts hres
      rw [hgoog, hval]
      unfold googleChunkValue
      rw [hres]
    · intro hres
      rw [hgoog, hval]
      unfold googleChunkValue
      rcases hres with hres | hres <;> rw [hres] <;>
        rw [chunk_getElem 3 (by omega) texts j]
  · rw [hlib, hllen]
  · intro j hj
    have hval := hlval j hj
    simp only [Nat.zero_add] at hval
    constructor
    · intro ts hb
      rw [hlib, hval]
      unfold libreChunkValue
      rw [hb]
    · intro hb hline
      rw [hlib, hval]
      unfold libreChunkValue
      rw [hb]
      rw [List.getElem?_map, List.getElem?_enum]
      rw [chunk_getElem 6 (by omega) texts j]
      rw [List.getElem?_eq_getElem hj]
      simp only [Option.map_some']
      rw [hline]


/-- C9 (witness): three lines where the whole chunk throws and the middle
line's retry also throws: positions 0 and 2 are translated, position 1 keeps
the original text. -/
theorem claim_C9_witness :
    (libreTranslateBatch (fun _ => BatchOutcome.throw)
      (fun _ li => if li = 1 then LineOutcome.throw else LineOutcome.ok "X")
      ["a", "b", "c"])[1]? = (["a", "b", "c"] : List String)[1]? :=
  ((claim_C9 (fun _ _ _ => TrOutcome.fail) (fun _ => BatchOutcome.throw)
      (fun _ li => if li = 1 then LineOutcome.throw else LineOutcome.ok "X")
      ["a", "b", "c"]
      (fun _ _ _ _ h => nomatch h)
      (fun _ _ h => nomatch h)).2.2.2 1 (by decide)).2 rfl (by decide)

end DualSubs

namespace DualSubs

/-- `digitsToNat` with an explicit accumulator. -/
theorem digitsToNat_from (ds : List Char) :
    ∀ a : Nat, ds.foldl (fun a c => a * 10 + (c.toNat - 48)) a =
      a * 10 ^ ds.length + digitsToNat ds := by
  induction ds with
  | nil => intro a; simp [digitsToNat]
  | cons c ds ih =>
    intro a
    show ds.foldl _ (a * 10 + (c.toNat - 48)) = _
    rw [ih (a * 10 + (c.toNat - 48))]
    show _ = a * 10 ^ (ds.length + 1) + ds.foldl _ (0 * 10 + (c.toNat - 48))
    rw [ih (0 * 10 + (c.toNat - 48))]
    ring

theorem isDigit_ofNat (d : Nat) (hd : d < 10) :
    (Char.ofNat (48 + d)).isDigit = true ∧ isJsWs (Char.ofNat (48 + d)) = false ∧
      Char.ofNat (48 + d) ≠ '\n' ∧ (Char.ofNat (48 + d)).toNat - 48 = d ∧
      Char.ofNat (48 + d) ≠ '-' ∧ Char.ofNat (48 + d) ≠ '+' := by
  interval_cases d <;> exact ⟨rfl, rfl, by decide, by decide, by decide, by decide⟩

theorem natDigitsAux_spec :
    ∀ (f n : Nat) (acc : List Char), n < 10 ^ (f + 1) →
      ∃ ds, natDigitsAux (f + 1) n acc = ds ++ acc ∧ ds ≠ [] ∧
        (∀ c ∈ ds, c.isDigit = true ∧ isJsWs c = false ∧ c ≠ '\n' ∧ c ≠ '-' ∧ c ≠ '+') ∧
        digitsToNat ds = n ∧ n < 10 ^ ds.length ∧
        (ds.length = 1 ∨ 10 ^ (ds.length - 1) ≤ n) := by
  intro f
  induction f using Nat.strong_induction_on with
  | _ f ih =>
    intro n acc hn
    by_cases h10 : n < 10
    · refine ⟨[Char.ofNat (48 + n % 10)], ?_, by simp, ?_, ?_, ?_, ?_⟩
      · simp [natDigitsAux, h10]
      · intro c hc
        rw [List.mem_singleton] at hc
        subst hc
        obtain ⟨h1, h2, h3, _, h5, h6⟩ := isDigit_ofNat (n % 10) (Nat.mod_lt n (by omega))
        exact ⟨h1, h2, h3, h5, h6⟩
      · show digitsToNat [Char.ofNat (48 + n % 10)] = n
        obtain ⟨_, _, _, h4, _, _⟩ := isDigit_ofNat (n % 10) (Nat.mod_lt n (by omega))
        show 0 * 10 + ((Char.ofNat (48 + n % 10)).toNat - 48) = n
        rw [h4]
        omega
      · simpa using h10
      · exact Or.inl rfl
    · push_neg at h10
      have hf1 : 1 ≤ f := by
        by_contra hf
        push_neg at hf
        interval_cases f
        · simp at hn
          omega
      obtain ⟨f', rfl⟩ : ∃ f', f = f' + 1 := ⟨f - 1, by omega⟩
      have hdiv : n / 10 < 10 ^ (f' + 1) := by
        have : n < 10 ^ (f' + 1 + 1) := hn
        rw [pow_succ] at this
        omega
      obtain ⟨ds', hds'eq, hne, hdig, hval, hlt, hlow⟩ :=
        ih f' (by omega) (n / 10) (Char.ofNat (48 + n % 10) :: acc) hdiv
      have hstep : natDigitsAux (f' + 1 + 1) n acc =
          natDigitsAux (f' + 1) (n / 10) (Char.ofNat (48 + n % 10) :: acc) := by
        simp [natDigitsAux, Nat.not_lt.mpr h10]
      obtain ⟨hd1, hd2, hd3, hd4, hd5, hd6⟩ := isDigit_ofNat (n % 10) (Nat.mod_lt n (by omega))
      refine ⟨ds' ++ [Char.ofNat (48 + n % 10)], ?_, by simp, ?_, ?_, ?_, ?_⟩
      · rw [hstep, hds'eq]
        simp
      · intro c hc
        rcases List.mem_append.mp hc with hc | hc
        · exact hdig c hc
        · rw [List.mem_singleton] at hc
          subst hc
          exact ⟨hd1, hd2, hd3, hd5, hd6⟩
      · show (ds' ++ [Char.ofNat (48 + n % 10)]).foldl _ 0 = n
        rw [List.foldl_append]
        show digitsToNat ds' * 10 + ((Char.ofNat (48 + n % 10)).toNat - 48) = n
        rw [hval, hd4]
        omega
      · rw [List.length_append, List.length_singleton, pow_succ]
        omega
      · right
        rw [List.length_append, List.length_singleton]
        rcases hlow with h1 | h1
        · rw [h1]
          simpa using h10
        · have : 10 ^ (ds'.length - 1) * 10 ≤ (n / 10) * 10 := Nat.mul_le_mul_right 10 h1
          rw [← pow_succ] at this
          have hlen1 : 1 ≤ ds'.length := List.length_pos.mpr hne
          have : 10 ^ ds'.length ≤ n / 10 * 10 := by
            have e : ds'.length - 1 + 1 = ds'.length := by omega
            rwa [e] at this
          have e3 : ds'.length + 1 - 1 = ds'.length := by omega
          rw [e3]
          omega

theorem natDigits_spec (n : Nat) :
    natDigits n ≠ [] ∧
    (∀ c ∈ natDigits n, c.isDigit = true ∧ isJsWs c = false ∧ c ≠ '\n' ∧ c ≠ '-' ∧ c ≠ '+') ∧
    digitsToNat (natDigits n) = n ∧ n < 10 ^ (natDigits n).length ∧
    ((natDigits n).length = 1 ∨ 10 ^ ((natDigits n).length - 1) ≤ n) := by
  have hn : n < 10 ^ (n + 1) :=
    lt_trans (Nat.lt_pow_self (by norm_num) n) (Nat.pow_lt_pow_succ (by norm_num))
  obtain ⟨ds, hds, hne, hdig, hval, hlt, hlow⟩ := natDigitsAux_spec n n [] hn
  have e : natDigits n = ds := by rw [natDigits, hds, List.append_nil]
  rw [e]
  exact ⟨hne, hdig, hval, hlt, hlow⟩

theorem natDigits_length_le (n k : Nat) (hk : 1 ≤ k) (h : n < 10 ^ k) :
    (natDigits n).length ≤ k := by
  obtain ⟨-, -, -, -, hlow⟩ := natDigits_spec n
  rcases hlow with h1 | h1
  · omega
  · by_contra hgt
    push_neg at hgt
    have : 10 ^ k ≤ 10 ^ ((natDigits n).length - 1) :=
      Nat.pow_le_pow_right (by norm_num) (by omega)
    omega

theorem jsParseIntDec_natDigits (n : Nat) :
    jsParseIntDec (natDigits n) = some (n : Int) := by
  obtain ⟨hne, hdig, hval, -, -⟩ := natDigits_spec n
  rcases hds : natDigits n with _ | ⟨c, t⟩
  · exact absurd hds hne
  · rw [hds] at hdig hval
    have hc := hdig c (List.mem_cons_self c t)
    have hdrop : (c :: t).dropWhile isJsWs = c :: t := by
      rw [List.dropWhile_cons, if_neg (by simp [hc.2.1])]
    have htake : (c :: t).takeWhile Char.isDigit = c :: t := by
      rw [List.takeWhile_eq_self_iff]
      intro a ha
      exact (hdig a ha).1
    simp only [jsParseIntDec]
    rw [hdrop]
    have hcm : c ≠ '-' := hc.2.2.2.1
    have hcp : c ≠ '+' := hc.2.2.2.2
    split
    · next heq => exact absurd (List.cons.injEq .. ▸ heq).1 hcm
    · next heq => exact absurd (List.cons.injEq .. ▸ heq).1 hcp
    · next l h1 h2 =>
      show (if ((c :: t).takeWhile Char.isDigit).isEmpty then none
            else some ((digitsToNat ((c :: t).takeWhile Char.isDigit) : Int))) = some (n : Int)
      rw [htake]
      rw [if_neg (by simp)]
      rw [hval]

theorem readDigits_exact (ds : List Char) (hdig : ∀ c ∈ ds, c.isDigit = true) :
    ∀ t, readDigits ds.length (ds ++ t) = some (digitsToNat ds, t) := by
  induction ds with
  | nil => intro t; rfl
  | cons c ds ih =>
    intro t
    have hc : c.isDigit = true := hdig c (List.mem_cons_self c ds)
    show readDigits (ds.length + 1) (c :: (ds ++ t)) = _
    show (if c.isDigit then
        (readDigits ds.length (ds ++ t)).map
          (fun p => (p.1 + (c.toNat - 48) * 10 ^ ds.length, p.2))
      else none) = _
    rw [if_pos hc, ih (fun a ha => hdig a (List.mem_cons_of_mem c ha)) t]
    show some (digitsToNat ds + (c.toNat - 48) * 10 ^ ds.length, t) = _
    have : digitsToNat (c :: ds) = (c.toNat - 48) * 10 ^ ds.length + digitsToNat ds := by
      show ds.foldl _ (0 * 10 + (c.toNat - 48)) = _
      rw [digitsToNat_from]
      ring_nf
    rw [this]
    ring_nf

theorem foldl_zero_replicate (m : Nat) :
    (List.replicate m '0').foldl (fun a c => a * 10 + (c.toNat - 48)) 0 = 0 := by
  induction m with
  | zero => rfl
  | succ m ih =>
    rw [List.replicate_succ]
    show (List.replicate m '0').foldl _ (0 * 10 + ('0'.toNat - 48)) = 0
    have : 0 * 10 + ('0'.toNat - 48) = 0 := by decide
    rw [this, ih]

theorem digitsToNat_padZero (k : Nat) (ds : List Char) :
    digitsToNat (padZero k ds) = digitsToNat ds := by
  show (List.replicate (k - ds.length) '0' ++ ds).foldl _ 0 = _
  rw [List.foldl_append, foldl_zero_replicate]
  rfl

theorem length_padZero (k : Nat) (ds : List Char) (h : ds.length ≤ k) :
    (padZero k ds).length = k := by
  show (List.replicate (k - ds.length) '0' ++ ds).length = k
  rw [List.length_append, List.length_replicate]
  omega

theorem mem_padZero (k : Nat) (ds : List Char) (c : Char) (h : c ∈ padZero k ds) :
    c = '0' ∨ c ∈ ds := by
  rcases List.mem_append.mp h with h | h
  · exact Or.inl (List.eq_of_mem_replicate h)
  · exact Or.inr h

theorem jsNumToString_ofNat (n : Nat) : jsNumToString (n : Int) = natDigits n := by
  rw [jsNumToString, if_neg (by omega)]
  norm_num

theorem encodeNat (k n : Nat) (hk : 1 ≤ k) (h : n < 10 ^ k) :
    (padZero k (jsNumToString (n : Int))).length = k ∧
    (∀ c ∈ padZero k (jsNumToString (n : Int)),
      c.isDigit = true ∧ isJsWs c = false ∧ c ≠ '\n') ∧
    digitsToNat (padZero k (jsNumToString (n : Int))) = n := by
  rw [jsNumToString_ofNat]
  obtain ⟨-, hdig, hval, -, -⟩ := natDigits_spec n
  refine ⟨length_padZero k _ (natDigits_length_le n k hk h), ?_, ?_⟩
  · intro c hc
    rcases mem_padZero k _ c hc with h0 | hmem
    · subst h0; exact ⟨by decide, by decide, by decide⟩
    · obtain ⟨h1, h2, h3, -, -⟩ := hdig c hmem
      exact ⟨h1, h2, h3⟩
  · rw [digitsToNat_padZero, hval]

theorem readTime_build (A B C D rest : List Char)
    (hA2 : A.length = 2) (hB2 : B.length = 2) (hC2 : C.length = 2) (hD3 : D.length = 3)
    (hdA : ∀ c ∈ A, c.isDigit = true) (hdB : ∀ c ∈ B, c.isDigit = true)
    (hdC : ∀ c ∈ C, c.isDigit = true) (hdD : ∀ c ∈ D, c.isDigit = true) :
    readTime (A ++ ':' :: (B ++ ':' :: (C ++ ',' :: (D ++ rest)))) =
      some (((digitsToNat A * 3600000 + digitsToNat B * 60000 + digitsToNat C * 1000 +
        digitsToNat D : Nat) : Int), rest) := by
  have h1 := readDigits_exact A hdA (':' :: (B ++ ':' :: (C ++ ',' :: (D ++ rest))))
  have h2 := readDigits_exact B hdB (':' :: (C ++ ',' :: (D ++ rest)))
  have h3 := readDigits_exact C hdC (',' :: (D ++ rest))
  have h4 := readDigits_exact D hdD rest
  rw [hA2] at h1
  rw [hB2] at h2
  rw [hC2] at h3
  rw [hD3] at h4
  simp only [readTime, h1, h2, h3, h4]

theorem int_fdiv_ofNat (m k : Nat) : Int.fdiv (m : Int) (k : Int) = ((m / k : Nat) : Int) :=
  (Int.ofNat_fdiv m k).symm

theorem int_tmod_ofNat (m k : Nat) : Int.tmod (m : Int) (k : Int) = ((m % k : Nat) : Int) := rfl

theorem mts_eq (ms : Int) (h0 : 0 ≤ ms) (h1 : ms < 360000000) :
    ∃ H M S R : Nat, H < 100 ∧ M < 100 ∧ S < 100 ∧ R < 1000 ∧
      millisecondsToTimestamp ms =
        padZero 2 (jsNumToString (H : Int)) ++ ':' ::
          (padZero 2 (jsNumToString (M : Int)) ++ ':' ::
            (padZero 2 (jsNumToString (S : Int)) ++ ',' :: padZero 3 (jsNumToString (R : Int)))) ∧
      ((H * 3600000 + M * 60000 + S * 1000 + R : Nat) : Int) = ms := by
  obtain ⟨n, rfl⟩ : ∃ n : Nat, (n : Int) = ms := ⟨ms.toNat, Int.toNat_of_nonneg h0⟩
  have hn : n < 360000000 := by exact_mod_cast h1
  refine ⟨n / 3600000, n % 3600000 / 60000, n % 60000 / 1000, n % 1000,
    by omega, by omega, by omega, by omega, ?_, by push_cast; omega⟩
  show padZero 2 (jsNumToString (Int.fdiv (n : Int) 3600000)) ++ ':' ::
      (padZero 2 (jsNumToString (Int.fdiv (Int.tmod (n : Int) 3600000) 60000)) ++ ':' ::
        (padZero 2 (jsNumToString (Int.fdiv (Int.tmod (n : Int) 60000) 1000)) ++ ',' ::
          padZero 3 (jsNumToString (Int.tmod (n : Int) 1000)))) = _
  rw [show (3600000 : Int) = ((3600000 : Nat) : Int) from rfl, int_tmod_ofNat, int_fdiv_ofNat,
      show (60000 : Int) = ((60000 : Nat) : Int) from rfl, int_tmod_ofNat, int_fdiv_ofNat,
      show (1000 : Int) = ((1000 : Nat) : Int) from rfl, int_tmod_ofNat, int_fdiv_ofNat]

theorem mts_chars (ms : Int) (h0 : 0 ≤ ms) (h1 : ms < 360000000) :
    millisecondsToTimestamp ms ≠ [] ∧
    ((millisecondsToTimestamp ms).headD 'a').isDigit = true ∧
    ∀ c ∈ millisecondsToTimestamp ms, isJsWs c = false ∧ c ≠ '\n' := by
  obtain ⟨H, M, S, R, hH, hM, hS, hR, heq, -⟩ := mts_eq ms h0 h1
  obtain ⟨hlA, hcA, -⟩ := encodeNat 2 H (by norm_num) (by omega)
  obtain ⟨hlB, hcB, -⟩ := encodeNat 2 M (by norm_num) (by omega)
  obtain ⟨hlC, hcC, -⟩ := encodeNat 2 S (by norm_num) (by omega)
  obtain ⟨hlD, hcD, -⟩ := encodeNat 3 R (by norm_num) (by omega)
  rw [heq]
  rcases hA : padZero 2 (jsNumToString (H : Int)) with _ | ⟨a, tA⟩
  · rw [hA] at hlA; simp at hlA
  · rw [hA] at hcA
    refine ⟨by simp, ?_, ?_⟩
    · show a.isDigit = true
      exact (hcA a (List.mem_cons_self a tA)).1
    · intro c hc
      rcases List.mem_append.mp hc with hc | hc
      · exact ⟨(hcA c hc).2.1, (hcA c hc).2.2⟩
      rcases List.mem_cons.mp hc with rfl | hc
      · exact ⟨by decide, by decide⟩
      rcases List.mem_append.mp hc with hc | hc
      · exact ⟨(hcB c hc).2.1, (hcB c hc).2.2⟩
      rcases List.mem_cons.mp hc with rfl | hc
      · exact ⟨by decide, by decide⟩
      rcases List.mem_append.mp hc with hc | hc
      · exact ⟨(hcC c hc).2.1, (hcC c hc).2.2⟩
      rcases List.mem_cons.mp hc with rfl | hc
      · exact ⟨by decide, by decide⟩
      · exact ⟨(hcD c hc).2.1, (hcD c hc).2.2⟩

theorem dropWhile_eq_self_of_not_ws (l : List Char) (h : ∀ c ∈ l, isJsWs c = false) :
    l.dropWhile isJsWs = l := by
  cases l with
  | nil => rfl
  | cons c t => rw [List.dropWhile_cons, if_neg (by simp [h c (List.mem_cons_self c t)])]

theorem readTime_mts (ms : Int) (rest : List Char) (h0 : 0 ≤ ms) (h1 : ms < 360000000) :
    readTime (millisecondsToTimestamp ms ++ rest) = some (ms, rest) := by
  obtain ⟨H, M, S, R, hH, hM, hS, hR, heq, hval⟩ := mts_eq ms h0 h1
  obtain ⟨hlA, hcA, hvA⟩ := encodeNat 2 H (by norm_num) (by omega)
  obtain ⟨hlB, hcB, hvB⟩ := encodeNat 2 M (by norm_num) (by omega)
  obtain ⟨hlC, hcC, hvC⟩ := encodeNat 2 S (by norm_num) (by omega)
  obtain ⟨hlD, hcD, hvD⟩ := encodeNat 3 R (by norm_num) (by omega)
  rw [heq]
  simp only [List.append_assoc, List.cons_append]
  rw [readTime_build _ _ _ _ rest hlA hlB hlC hlD
    (fun c hc => (hcA c hc).1) (fun c hc => (hcB c hc).1)
    (fun c hc => (hcC c hc).1) (fun c hc => (hcD c hc).1)]
  rw [hvA, hvB, hvC, hvD, hval]

theorem matchTimePairAt_ts (ms1 ms2 : Int) (rest : List Char)
    (ha : 0 ≤ ms1) (hb : ms1 < 360000000) (hc : 0 ≤ ms2) (hd : ms2 < 360000000)
    (hrest : ∀ c ∈ rest, isJsWs c = false) :
    matchTimePairAt (millisecondsToTimestamp ms1 ++
      (' ' :: '-' :: '-' :: '>' :: ' ' :: []) ++ (millisecondsToTimestamp ms2 ++ rest)) =
      some (ms1, ms2) := by
  have h2 := mts_chars ms2 hc hd
  have hdrop2 : (millisecondsToTimestamp ms2 ++ rest).dropWhile isJsWs =
      millisecondsToTimestamp ms2 ++ rest := by
    apply dropWhile_eq_self_of_not_ws
    intro c hcm
    rcases List.mem_append.mp hcm with hcm | hcm
    · exact (h2.2.2 c hcm).1
    · exact hrest c hcm
  simp only [List.append_assoc, List.cons_append, List.nil_append]
  simp only [matchTimePairAt]
  rw [readTime_mts ms1 _ ha hb]
  simp only [List.dropWhile_cons, show isJsWs ' ' = true from rfl, if_true,
    show isJsWs '-' = false from rfl, if_false, Bool.false_eq_true]
  rw [hdrop2]
  rw [readTime_mts ms2 rest hc hd]

theorem findTimestamps_of_matchAt (l : List Char) (r : Int × Int) (hne : l ≠ [])
    (h : matchTimePairAt l = some r) : findTimestamps l = some r := by
  cases l with
  | nil => exact absurd rfl hne
  | cons c t =>
    show (match matchTimePairAt (c :: t) with
      | some r => some r
      | none => findTimestamps t) = some r
    rw [h]

theorem nlOk_append_of_noNl (A B : List Char) (hA : ∀ c ∈ A, c ≠ '\n')
    (hB : nlOk B = true) : nlOk (A ++ B) = true := by
  induction A with
  | nil => simpa using hB
  | cons c t ih =>
    show nlOk (c :: (t ++ B)) = true
    have hc : c ≠ '\n' := hA c (List.mem_cons_self c t)
    simp only [nlOk, if_neg hc, Bool.true_and]
    exact ih (fun a ha => hA a (List.mem_cons_of_mem c ha))

theorem nlOk_of_noNl (A : List Char) (hA : ∀ c ∈ A, c ≠ '\n') : nlOk A = true := by
  have := nlOk_append_of_noNl A [] hA rfl
  simpa using this

theorem nlOk_newline (d : Char) (t : List Char) (hd : isJsWs d = false)
    (h : nlOk (d :: t) = true) : nlOk ('\n' :: d :: t) = true := by
  simp only [nlOk, if_pos rfl, hd, Bool.not_false, Bool.true_and] at h ⊢
  exact h

theorem splitOnP_pieces (p : Char → Bool) (xs : List Char) :
    ∀ piece ∈ xs.splitOnP p, ∀ a ∈ piece, p a = false := by
  induction xs with
  | nil =>
    intro piece hp a ha
    rw [List.splitOnP_nil] at hp
    rw [List.mem_singleton] at hp
    subst hp
    exact absurd ha (List.not_mem_nil a)
  | cons x xs ih =>
    intro piece hp a ha
    rw [List.splitOnP_cons] at hp
    by_cases hx : p x = true
    · rw [if_pos hx] at hp
      rcases List.mem_cons.mp hp with rfl | hp
      · exact absurd ha (List.not_mem_nil a)
      · exact ih piece hp a ha
    · rw [if_neg hx] at hp
      rcases hsp : xs.splitOnP p with _ | ⟨h0, t0⟩
      · exact absurd hsp (List.splitOnP_ne_nil p xs)
      · rw [hsp] at hp
        simp only [List.modifyHead] at hp
        rcases List.mem_cons.mp hp with rfl | hp
        · rcases List.mem_cons.mp ha with rfl | ha
          · simpa using hx
          · exact ih h0 (hsp ▸ List.mem_cons_self h0 t0) a ha
        · exact ih piece (hsp ▸ List.mem_cons_of_mem h0 hp) a ha

theorem splitNl_pieces (l : List Char) : ∀ piece ∈ splitNl l, '\n' ∉ piece := by
  intro piece hp hmem
  have := splitOnP_pieces (· == '\n') l piece hp '\n' hmem
  simp at this

theorem splitNl_ne_nil (l : List Char) : splitNl l ≠ [] :=
  List.splitOnP_ne_nil _ l

theorem intercalate_cons₂ (s x y : List Char) (zs : List (List Char)) :
    List.intercalate s (x :: y :: zs) = x ++ s ++ List.intercalate s (y :: zs) := by
  simp [List.intercalate]

theorem intercalate_single (s x : List Char) : List.intercalate s [x] = x := by
  simp [List.intercalate]

theorem headD_append_of_ne_nil (A B : List Char) (h : A ≠ []) (d : Char) :
    (A ++ B).headD d = A.headD d := by
  cases A with
  | nil => exact absurd rfl h
  | cons c t => rfl

theorem getLastD_append_right (A B : List Char) (h : B ≠ []) (d : Char) :
    (A ++ B).getLastD d = B.getLastD d := by
  rw [List.getLastD_eq_getLast?, List.getLastD_eq_getLast?,
    List.getLast?_append_of_ne_nil A h]

theorem wfLine_facts (l : List Char) (h : wfLine l = true) :
    l ≠ [] ∧ isJsWs (l.headD 'a') = false ∧ isJsWs (l.getLastD 'a') = false := by
  simp only [wfLine, Bool.and_eq_true, Bool.not_eq_true'] at h
  exact ⟨by simpa using h.1.1, h.1.2, h.2⟩

theorem intercalate_text_facts (lines : List (List Char))
    (h : ∀ l ∈ lines, wfLine l = true ∧ '\n' ∉ l) :
    ∀ _ : lines ≠ [],
      nlOk (List.intercalate ['\n'] lines) = true ∧
      List.intercalate ['\n'] lines ≠ [] ∧
      isJsWs ((List.intercalate ['\n'] lines).headD 'a') = false ∧
      isJsWs ((List.intercalate ['\n'] lines).getLastD 'a') = false := by
  induction lines with
  | nil => intro hne; exact absurd rfl hne
  | cons l0 rest ih =>
    intro hne
    have hl0 := h l0 (List.mem_cons_self l0 rest)
    obtain ⟨hl0ne, hl0h, hl0l⟩ := wfLine_facts l0 hl0.1
    cases rest with
    | nil =>
      rw [intercalate_single]
      exact ⟨nlOk_of_noNl l0 (fun c hc hq => hl0.2 (hq ▸ hc)), hl0ne, hl0h, hl0l⟩
    | cons l1 rest2 =>
      obtain ⟨hT, hTne, hTh, hTl⟩ :=
        ih (fun l hl => h l (List.mem_cons_of_mem l0 hl)) (by simp)
      rw [intercalate_cons₂]
      have hshape : l0 ++ ['\n'] ++ List.intercalate ['\n'] (l1 :: rest2) =
          l0 ++ ('\n' :: List.intercalate ['\n'] (l1 :: rest2)) := by simp
      rw [hshape]
      rcases hTc : List.intercalate ['\n'] (l1 :: rest2) with _ | ⟨d, t⟩
      · exact absurd hTc hTne
      · rw [hTc] at hT hTh hTl
        refine ⟨?_, by simp, ?_, ?_⟩
        · apply nlOk_append_of_noNl l0 _ (fun c hc hq => hl0.2 (hq ▸ hc))
          exact nlOk_newline d t (by simpa using hTh) hT
        · rw [headD_append_of_ne_nil _ _ hl0ne]
          exact hl0h
        · rw [getLastD_append_right _ _ (by simp)]
          rw [show ('\n' :: d :: t) = ['\n'] ++ (d :: t) from rfl]
          rw [getLastD_append_right _ _ (by simp)]
          exact hTl

theorem dropWhile_id_of_headD (p : Char → Bool) (l : List Char) (d : Char)
    (h : p (l.headD d) = false) : l.dropWhile p = l := by
  cases l with
  | nil => rfl
  | cons c t =>
    simp only [List.headD_cons] at h
    rw [List.dropWhile_cons, if_neg (by simp [h])]

theorem takeWhile_ws_nil (l : List Char) (h : isJsWs (l.headD 'a') = false) :
    l.takeWhile isJsWs = [] := by
  cases l with
  | nil => rfl
  | cons c t =>
    simp only [List.headD_cons] at h
    rw [List.takeWhile_cons, if_neg (by simp [h])]

theorem headD_reverse (l : List Char) (d : Char) : l.reverse.headD d = l.getLastD d := by
  rw [List.headD_eq_head?_getD, List.head?_reverse, List.getLastD_eq_getLast?]

theorem jsTrim_eq_self (l : List Char) (h1 : isJsWs (l.headD 'a') = false)
    (h2 : isJsWs (l.getLastD 'a') = false) : jsTrim l = l := by
  show ((l.dropWhile isJsWs).reverse.dropWhile isJsWs).reverse = l
  rw [dropWhile_id_of_headD _ _ _ h1]
  rw [dropWhile_id_of_headD _ _ 'a' (by rw [headD_reverse]; exact h2)]
  exact List.reverse_reverse l

theorem jsTrim_append_nl (X : List Char) (h1 : isJsWs (X.headD 'a') = false)
    (h2 : isJsWs (X.getLastD 'a') = false) : jsTrim (X ++ ['\n']) = X := by
  show (((X ++ ['\n']).dropWhile isJsWs).reverse.dropWhile isJsWs).reverse = X
  cases X with
  | nil => rfl
  | cons c t =>
    have e1 : ((c :: t) ++ ['\n']).dropWhile isJsWs = (c :: t) ++ ['\n'] :=
      dropWhile_id_of_headD _ _ 'a'
        (by rw [headD_append_of_ne_nil _ _ (by simp)]; exact h1)
    rw [e1, List.reverse_append,
      show (['\n'] : List Char).reverse = ['\n'] from rfl, List.singleton_append,
      List.dropWhile_cons, if_pos (by decide),
      dropWhile_id_of_headD _ _ 'a' (by rw [headD_reverse]; exact h2)]
    exact List.reverse_reverse _

theorem goSplit_nil_input (f : Nat) (acc : List Char) : goSplit f [] acc = [acc.reverse] := by
  cases f <;> rfl

theorem goSplit_cons_not_nl (fuel : Nat) (c : Char) (rest acc : List Char) (hc : c ≠ '\n') :
    goSplit (fuel + 1) (c :: rest) acc = goSplit fuel rest (c :: acc) := by
  simp only [goSplit, if_neg hc]

theorem goSplit_cons_nl_none (fuel : Nat) (rest acc : List Char)
    (h : afterLastNl (rest.takeWhile isJsWs) = none) :
    goSplit (fuel + 1) ('\n' :: rest) acc = goSplit fuel rest ('\n' :: acc) := by
  simp only [goSplit, if_pos rfl, h]
  simp

theorem goSplit_cons_nl_some (fuel : Nat) (rest acc post : List Char)
    (h : afterLastNl (rest.takeWhile isJsWs) = some post) :
    goSplit (fuel + 1) ('\n' :: rest) acc =
      acc.reverse :: goSplit fuel (post ++ rest.drop (rest.takeWhile isJsWs).length) [] := by
  simp only [goSplit, if_pos rfl, h]
  simp

theorem goSplit_no_split (A : List Char) :
    ∀ _ : nlOk A = true, ∀ f t acc,
      goSplit (A.length + f) (A ++ t) acc = goSplit f t (A.reverse ++ acc) := by
  induction A with
  | nil => intro _ f t acc; simp
  | cons c A2 ih =>
    intro h f t acc
    rw [show (c :: A2).length + f = (A2.length + f) + 1 by simp only [List.length_cons]; omega]
    rw [List.cons_append]
    simp only [nlOk, Bool.and_eq_true] at h
    by_cases hc : c = '\n'
    · subst hc
      rcases A2 with _ | ⟨d, A3⟩
      · rw [if_pos rfl] at h
        simp at h
      · have hd : isJsWs d = false := by
          have h1 := h.1
          rw [if_pos rfl] at h1
          simpa using h1
        have htake : ((d :: A3) ++ t).takeWhile isJsWs = [] := by
          rw [List.cons_append, List.takeWhile_cons, if_neg (by simp [hd])]
        rw [goSplit_cons_nl_none _ _ _ (by rw [htake]; rfl)]
        rw [ih h.2 f t ('\n' :: acc)]
        congr 1
        simp
    · rw [goSplit_cons_not_nl _ _ _ _ hc]
      rw [ih h.2 f t (c :: acc)]
      congr 1
      simp

theorem goSplit_sep (f : Nat) (t acc : List Char) (ht : t.takeWhile isJsWs = []) :
    goSplit (f + 1) ('\n' :: '\n' :: t) acc = acc.reverse :: goSplit f t [] := by
  have hrun : ('\n' :: t).takeWhile isJsWs = ['\n'] := by
    rw [List.takeWhile_cons, if_pos (by decide), ht]
  rw [goSplit_cons_nl_some f ('\n' :: t) acc [] (by rw [hrun]; rfl)]
  rw [hrun]
  simp

theorem intercalate2_headD (c2 : List Char) (cs2 : List (List Char)) (h : c2 ≠ []) (d : Char) :
    (List.intercalate ['\n', '\n'] (c2 :: cs2)).headD d = c2.headD d := by
  cases cs2 with
  | nil => rw [intercalate_single]
  | cons c3 cs3 => rw [intercalate_cons₂, List.append_assoc, headD_append_of_ne_nil _ _ h]

theorem goSplit_intercalate (cores : List (List Char)) :
    ∀ _ : (∀ c ∈ cores, nlOk c = true ∧ c ≠ [] ∧ isJsWs (c.headD 'a') = false),
    ∀ _ : cores ≠ [], ∀ f,
      goSplit ((List.intercalate ['\n', '\n'] cores).length + f)
        (List.intercalate ['\n', '\n'] cores) [] = cores := by
  induction cores with
  | nil => intro _ hne _; exact absurd rfl hne
  | cons c cs ih =>
    intro h _ f
    have hc := h c (List.mem_cons_self c cs)
    cases cs with
    | nil =>
      rw [intercalate_single]
      have hns := goSplit_no_split c hc.1 f [] []
      rw [List.append_nil] at hns
      rw [hns, goSplit_nil_input]
      simp
    | cons c2 cs2 =>
      have hc2 := h c2 (List.mem_cons_of_mem c (List.mem_cons_self c2 cs2))
      rw [intercalate_cons₂]
      have hshape : c ++ ['\n', '\n'] ++ List.intercalate ['\n', '\n'] (c2 :: cs2) =
          c ++ ('\n' :: '\n' :: List.intercalate ['\n', '\n'] (c2 :: cs2)) := by simp
      rw [hshape]
      rw [show (c ++ ('\n' :: '\n' :: List.intercalate ['\n', '\n'] (c2 :: cs2))).length + f =
          c.length + (((List.intercalate ['\n', '\n'] (c2 :: cs2)).length + (1 + f)) + 1) by
        simp only [List.length_append, List.length_cons]; omega]
      rw [goSplit_no_split c hc.1 _ _ []]
      rw [goSplit_sep _ _ _
        (takeWhile_ws_nil _ (by rw [intercalate2_headD c2 cs2 hc2.2.1]; exact hc2.2.2))]
      congr 1
      · simp
      · exact ih (fun x hx => h x (List.mem_cons_of_mem c hx)) (by simp) (1 + f)

theorem splitBlocks_intercalate (cores : List (List Char))
    (h : ∀ c ∈ cores, nlOk c = true ∧ c ≠ [] ∧ isJsWs (c.headD 'a') = false)
    (hne : cores ≠ []) :
    splitBlocks (List.intercalate ['\n', '\n'] cores) = cores := by
  have hg := goSplit_intercalate cores h hne 0
  rw [Nat.add_zero] at hg
  exact hg

theorem srtBlock_eq_core (idx : Nat) (e : SubtitleEntry) :
    srtBlock idx e = srtCore idx e ++ ['\n'] := by
  simp [srtBlock, srtCore]

theorem string_mk_data (s : String) : String.mk s.data = s := by
  cases s
  rfl

theorem headD_mem (l : List Char) (h : l ≠ []) (d : Char) : l.headD d ∈ l := by
  cases l with
  | nil => exact absurd rfl h
  | cons c t => exact List.mem_cons_self c t

theorem getLastD_cons_of_ne_nil (c : Char) (t : List Char) (h : t ≠ []) (d : Char) :
    (c :: t).getLastD d = t.getLastD d := by
  rw [show c :: t = [c] ++ t from rfl, getLastD_append_right _ _ h]

theorem wfEntry_facts (e : SubtitleEntry) (h : wfEntry e = true) :
    0 ≤ e.startTime ∧ e.startTime < 360000000 ∧ 0 ≤ e.endTime ∧ e.endTime < 360000000 ∧
    ∀ l ∈ splitNl e.text.data, wfLine l = true := by
  simp only [wfEntry, Bool.and_eq_true, decide_eq_true_eq, List.all_eq_true] at h
  exact ⟨h.1.1.1.1, h.1.1.1.2, h.1.1.2, h.1.2, h.2⟩

theorem text_facts (e : SubtitleEntry) (h : wfEntry e = true) :
    nlOk e.text.data = true ∧ e.text.data ≠ [] ∧
    isJsWs (e.text.data.headD 'a') = false ∧ isJsWs (e.text.data.getLastD 'a') = false := by
  obtain ⟨-, -, -, -, hlines⟩ := wfEntry_facts e h
  have hfacts := intercalate_text_facts (splitNl e.text.data)
    (fun l hl => ⟨hlines l hl, splitNl_pieces e.text.data l hl⟩)
    (splitNl_ne_nil e.text.data)
  rw [show List.intercalate ['\n'] (splitNl e.text.data) = e.text.data from
    List.intercalate_splitOn e.text.data '\n'] at hfacts
  exact hfacts

theorem tsline_noNl (e : SubtitleEntry) (h : wfEntry e = true) :
    ∀ c ∈ millisecondsToTimestamp e.startTime ++ (' ' :: '-' :: '-' :: '>' :: ' ' :: []) ++
      millisecondsToTimestamp e.endTime, c ≠ '\n' := by
  obtain ⟨h1, h2, h3, h4, -⟩ := wfEntry_facts e h
  intro c hc
  rcases List.mem_append.mp hc with hc | hc
  · rcases List.mem_append.mp hc with hc | hc
    · exact ((mts_chars e.startTime h1 h2).2.2 c hc).2
    · fin_cases hc <;> decide
  · exact ((mts_chars e.endTime h3 h4).2.2 c hc).2

theorem srtCore_facts (idx : Nat) (e : SubtitleEntry) (h : wfEntry e = true) :
    nlOk (srtCore idx e) = true ∧ srtCore idx e ≠ [] ∧
    isJsWs ((srtCore idx e).headD 'a') = false ∧
    isJsWs ((srtCore idx e).getLastD 'a') = false := by
  obtain ⟨h1, h2, h3, h4, -⟩ := wfEntry_facts e h
  obtain ⟨hTn, hTne, hTh, hTl⟩ := text_facts e h
  obtain ⟨hDne, hDdig, -, -, -⟩ := natDigits_spec idx
  obtain ⟨hM1ne, hM1h, hM1c⟩ := mts_chars e.startTime h1 h2
  have htsne : millisecondsToTimestamp e.startTime ++ (' ' :: '-' :: '-' :: '>' :: ' ' :: []) ++
      millisecondsToTimestamp e.endTime ≠ [] := by simp [hM1ne]
  have htsh : isJsWs (((millisecondsToTimestamp e.startTime ++
      (' ' :: '-' :: '-' :: '>' :: ' ' :: []) ++
      millisecondsToTimestamp e.endTime)).headD 'a') = false := by
    rw [List.append_assoc, headD_append_of_ne_nil _ _ hM1ne]
    have := headD_mem (millisecondsToTimestamp e.startTime) hM1ne 'a'
    exact (hM1c _ this).1
  simp only [srtCore]
  refine ⟨?_, ?_, ?_, ?_⟩
  · rw [List.append_assoc]
    apply nlOk_append_of_noNl _ _ (fun c hc => (hDdig c hc).2.2.1)
    rw [List.cons_append]
    rcases hts : (millisecondsToTimestamp e.startTime ++
        (' ' :: '-' :: '-' :: '>' :: ' ' :: []) ++ millisecondsToTimestamp e.endTime)
        with _ | ⟨d2, t2⟩
    · exact absurd hts htsne
    · rw [hts] at htsh
      rw [List.cons_append]
      apply nlOk_newline d2 _ (by simpa using htsh)
      rw [← List.cons_append]
      rcases hTc : e.text.data with _ | ⟨d3, t3⟩
      · exact absurd hTc hTne
      · rw [hTc] at hTn hTh
        apply nlOk_append_of_noNl
        · rw [← hts]
          exact tsline_noNl e h
        · exact nlOk_newline d3 t3 (by simpa using hTh) hTn
  · simp [hDne]
  · rw [List.append_assoc, headD_append_of_ne_nil _ _ hDne]
    have := headD_mem (natDigits idx) hDne 'a'
    exact (hDdig _ this).2.1
  · rw [getLastD_append_right _ _ (by simp)]
    rw [getLastD_cons_of_ne_nil _ _ hTne]
    exact hTl

theorem parseBlock_srtCore (idx : Nat) (e : SubtitleEntry) (h : wfEntry e = true) :
    parseBlock (srtCore idx e) = some ⟨(idx : Int), e.startTime, e.endTime, e.text⟩ := by
  obtain ⟨h1, h2, h3, h4, hwfl⟩ := wfEntry_facts e h
  obtain ⟨hcn, hcne, hch, hcl⟩ := srtCore_facts idx e h
  obtain ⟨hDne, hDdig, -, -, -⟩ := natDigits_spec idx
  obtain ⟨hM1ne, -, -⟩ := mts_chars e.startTime h1 h2
  have hjt : jsTrim (srtCore idx e) = srtCore idx e := jsTrim_eq_self _ hch hcl
  rcases hlines : splitNl e.text.data with _ | ⟨l2, rest⟩
  · exact absurd hlines (splitNl_ne_nil _)
  have hinter : List.intercalate ['\n'] (l2 :: rest) = e.text.data := by
    rw [← hlines]
    exact List.intercalate_splitOn e.text.data '\n'
  have hshape : srtCore idx e =
      List.intercalate ['\n'] (natDigits idx ::
        (millisecondsToTimestamp e.startTime ++ (' ' :: '-' :: '-' :: '>' :: ' ' :: []) ++
          millisecondsToTimestamp e.endTime) :: l2 :: rest) := by
    rw [intercalate_cons₂, intercalate_cons₂, hinter]
    simp [srtCore]
  have hx : ∀ l ∈ (natDigits idx ::
      (millisecondsToTimestamp e.startTime ++ (' ' :: '-' :: '-' :: '>' :: ' ' :: []) ++
        millisecondsToTimestamp e.endTime) :: l2 :: rest), '\n' ∉ l := by
    intro l hl
    rcases List.mem_cons.mp hl with rfl | hl
    · intro hm
      exact (hDdig _ hm).2.2.1 rfl
    rcases List.mem_cons.mp hl with rfl | hl
    · intro hm
      exact tsline_noNl e h _ hm rfl
    · intro hm
      exact splitNl_pieces e.text.data l (hlines ▸ hl) hm
  have hsplit : splitNl (srtCore idx e) = natDigits idx ::
      (millisecondsToTimestamp e.startTime ++ (' ' :: '-' :: '-' :: '>' :: ' ' :: []) ++
        millisecondsToTimestamp e.endTime) :: l2 :: rest := by
    rw [hshape]
    exact List.splitOn_intercalate _ '\n' hx (by simp)
  have hmatch := matchTimePairAt_ts e.startTime e.endTime [] h1 h2 h3 h4
    (fun c hc => absurd hc (List.not_mem_nil c))
  rw [List.append_nil] at hmatch
  have hts := findTimestamps_of_matchAt _ _ (by simp [hM1ne]) hmatch
  simp only [parseBlock, hjt, hsplit]
  rw [jsParseIntDec_natDigits]
  rw [hts]
  rw [hinter, string_mk_data]

theorem intercalate2_ne_nil (c : List Char) (cs : List (List Char)) (h : c ≠ []) :
    List.intercalate ['\n', '\n'] (c :: cs) ≠ [] := by
  cases cs with
  | nil => rw [intercalate_single]; exact h
  | cons c2 cs2 =>
    rw [intercalate_cons₂, List.append_assoc]
    simp [h]

theorem intercalate2_getLastD (cores : List (List Char))
    (h : ∀ c ∈ cores, c ≠ [] ∧ isJsWs (c.getLastD 'a') = false) :
    ∀ _ : cores ≠ [],
      isJsWs ((List.intercalate ['\n', '\n'] cores).getLastD 'a') = false := by
  induction cores with
  | nil => intro hne; exact absurd rfl hne
  | cons c cs ih =>
    intro _
    cases cs with
    | nil =>
      rw [intercalate_single]
      exact (h c (List.mem_cons_self c _)).2
    | cons c2 cs2 =>
      have hc2 := h c2 (List.mem_cons_of_mem c (List.mem_cons_self c2 cs2))
      rw [intercalate_cons₂, List.append_assoc,
        getLastD_append_right _ _ (by simp),
        getLastD_append_right _ _ (intercalate2_ne_nil c2 cs2 hc2.1)]
      exact ih (fun x hx => h x (List.mem_cons_of_mem c hx)) (by simp)

theorem intercalate_cons_ne (s x : List Char) (L : List (List Char)) (h : L ≠ []) :
    List.intercalate s (x :: L) = x ++ s ++ List.intercalate s L := by
  cases L with
  | nil => exact absurd rfl h
  | cons y zs => exact intercalate_cons₂ s x y zs

theorem intercalate_map_nl (cs : List (List Char)) :
    ∀ _ : cs ≠ [],
      List.intercalate ['\n'] (cs.map (fun c => c ++ ['\n'])) =
        List.intercalate ['\n', '\n'] cs ++ ['\n'] := by
  induction cs with
  | nil => intro hne; exact absurd rfl hne
  | cons c cs2 ih =>
    intro _
    cases cs2 with
    | nil =>
      rw [List.map_cons, List.map_nil, intercalate_single, intercalate_single]
    | cons c2 cs3 =>
      rw [List.map_cons, intercalate_cons_ne _ _ _ (by simp), ih (by simp), intercalate_cons₂]
      simp [List.append_assoc]

theorem serializeSRT_shape (entries : List SubtitleEntry) (hne : entries ≠ []) :
    (serializeSRT entries).data =
      List.intercalate ['\n', '\n'] (entries.enum.map (fun p => srtCore (p.1 + 1) p.2)) ++
        ['\n'] := by
  show List.intercalate ['\n'] (entries.enum.map (fun p => srtBlock (p.1 + 1) p.2)) = _
  have hmap : entries.enum.map (fun p => srtBlock (p.1 + 1) p.2) =
      (entries.enum.map (fun p => srtCore (p.1 + 1) p.2)).map (fun c => c ++ ['\n']) := by
    rw [List.map_map]
    exact List.map_congr_left (fun p _ => srtBlock_eq_core _ _)
  have hemne : entries.enum.map (fun p => srtCore (p.1 + 1) p.2) ≠ [] := by
    have hl : (entries.enum.map (fun p => srtCore (p.1 + 1) p.2)).length = entries.length := by
      rw [List.length_map, List.enum_length]
    intro hcon
    rw [hcon] at hl
    exact hne (List.eq_nil_of_length_eq_zero hl.symm)
  rw [hmap, intercalate_map_nl _ hemne]

theorem parseSRT_serializeSRT (entries : List SubtitleEntry) (h : wfSeq entries = true) :
    parseSRT (serializeSRT entries) = reindex entries := by
  rcases hE : entries with _ | ⟨e0, rest0⟩
  · rfl
  rw [← hE]
  have hne : entries ≠ [] := by rw [hE]; simp
  have hwf : ∀ e ∈ entries, wfEntry e = true := List.all_eq_true.mp h
  have hwfE : ∀ p ∈ entries.enum, wfEntry p.2 = true := by
    intro p hp
    apply hwf
    rw [← List.enum_map_snd entries]
    exact List.mem_map_of_mem Prod.snd hp
  have hcoreF : ∀ c ∈ entries.enum.map (fun p => srtCore (p.1 + 1) p.2),
      nlOk c = true ∧ c ≠ [] ∧ isJsWs (c.headD 'a') = false := by
    intro c hc
    obtain ⟨p, hp, rfl⟩ := List.mem_map.mp hc
    obtain ⟨a1, a2, a3, -⟩ := srtCore_facts (p.1 + 1) p.2 (hwfE p hp)
    exact ⟨a1, a2, a3⟩
  have hcoreL : ∀ c ∈ entries.enum.map (fun p => srtCore (p.1 + 1) p.2),
      c ≠ [] ∧ isJsWs (c.getLastD 'a') = false := by
    intro c hc
    obtain ⟨p, hp, rfl⟩ := List.mem_map.mp hc
    obtain ⟨-, a2, -, a4⟩ := srtCore_facts (p.1 + 1) p.2 (hwfE p hp)
    exact ⟨a2, a4⟩
  have hcsne : entries.enum.map (fun p => srtCore (p.1 + 1) p.2) ≠ [] := by
    have hl : (entries.enum.map (fun p => srtCore (p.1 + 1) p.2)).length = entries.length := by
      rw [List.length_map, List.enum_length]
    intro hcon
    rw [hcon] at hl
    exact hne (List.eq_nil_of_length_eq_zero hl.symm)
  have hXh : isJsWs ((List.intercalate ['\n', '\n']
      (entries.enum.map (fun p => srtCore (p.1 + 1) p.2))).headD 'a') = false := by
    rcases hcs : entries.enum.map (fun p => srtCore (p.1 + 1) p.2) with _ | ⟨c0, cs0⟩
    · exact absurd hcs hcsne
    · have hc0 := hcoreF c0 (hcs ▸ List.mem_cons_self c0 cs0)
      rw [hcs, intercalate2_headD c0 cs0 hc0.2.1]
      exact hc0.2.2
  have hXl := intercalate2_getLastD _ hcoreL hcsne
  show (splitBlocks (jsTrim (serializeSRT entries).data)).filterMap parseBlock = _
  rw [serializeSRT_shape entries hne]
  rw [jsTrim_append_nl _ hXh hXl]
  rw [splitBlocks_intercalate _ hcoreF hcsne]
  rw [List.filterMap_map]
  calc entries.enum.filterMap (parseBlock ∘ fun p => srtCore (p.1 + 1) p.2)
      = entries.enum.filterMap
          (fun p => some (⟨(p.1 : Int) + 1, p.2.startTime, p.2.endTime, p.2.text⟩ :
            SubtitleEntry)) := by
        apply List.filterMap_congr
        intro p hp
        show parseBlock (srtCore (p.1 + 1) p.2) = _
        rw [parseBlock_srtCore (p.1 + 1) p.2 (hwfE p hp)]
        norm_cast
    _ = entries.enum.map
          (fun p => (⟨(p.1 : Int) + 1, p.2.startTime, p.2.endTime, p.2.text⟩ :
            SubtitleEntry)) :=
        congr_fun (List.filterMap_eq_map _) _
    _ = reindex entries := rfl

theorem reindex_getElem? (l : List SubtitleEntry) (i : Nat) :
    (reindex l)[i]? = (l[i]?).map (fun e => { e with index := (i : Int) + 1 }) := by
  show (l.enum.map _)[i]? = _
  rw [List.getElem?_map, List.getElem?_enum]
  cases l[i]? <;> rfl

/-- C5: round-trip of the codec.  For a well-formed cue sequence the re-parse of
the serialized file is exactly the input with ordinals renumbered 1, 2, …:
same length and, position by position, the same start time, end time and text. -/
theorem claim_C5 (entries : List SubtitleEntry) (h : wfSeq entries = true) :
    parseSRT (serializeSRT entries) = reindex entries ∧
    (parseSRT (serializeSRT entries)).length = entries.length ∧
    ∀ i : Nat, (parseSRT (serializeSRT entries))[i]? =
      (entries[i]?).map (fun e => { e with index := (i : Int) + 1 }) := by
  have hrt := parseSRT_serializeSRT entries h
  refine ⟨hrt, by rw [hrt, reindex_length], ?_⟩
  intro i
  rw [hrt]
  exact reindex_getElem? entries i

theorem claim_C5_witness :
    wfSeq [⟨7, 0, 1500, "Hi"⟩, ⟨2, 2000, 3000, "Yo"⟩] = true ∧
    parseSRT (serializeSRT [⟨7, 0, 1500, "Hi"⟩, ⟨2, 2000, 3000, "Yo"⟩]) =
      reindex [⟨7, 0, 1500, "Hi"⟩, ⟨2, 2000, 3000, "Yo"⟩] :=
  ⟨by decide, (claim_C5 _ (by decide)).1⟩

/-- C6 (amended): `parseSRT` does not enforce `endMs > startMs`.  A serialized
cue with equal start and end times survives the round trip unchanged: the
parsed output contains an entry whose duration is not positive. -/
theorem claim_C6_amended (t : Int) (h0 : 0 ≤ t) (h1 : t < 360000000) :
    parseSRT (serializeSRT [⟨1, t, t, "Hi"⟩]) = [⟨1, t, t, "Hi"⟩] ∧
    ∃ e ∈ parseSRT (serializeSRT [⟨1, t, t, "Hi"⟩]), ¬e.startTime < e.endTime := by
  have hlast : ((splitNl ("Hi" : String).data).all wfLine) = true := by decide
  have hwf : wfSeq [⟨1, t, t, "Hi"⟩] = true := by
    simp only [wfSeq, List.all_cons, List.all_nil, wfEntry, hlast]
    simp [h0, h1]
  have hrt := parseSRT_serializeSRT _ hwf
  have hre : reindex [(⟨1, t, t, "Hi"⟩ : SubtitleEntry)] = [⟨1, t, t, "Hi"⟩] := by
    show [(⟨((0 : Nat) : Int) + 1, t, t, "Hi"⟩ : SubtitleEntry)] = _
    norm_num
  refine ⟨hrt.trans hre, ⟨1, t, t, "Hi"⟩, ?_, by simp⟩
  rw [hrt.trans hre]
  exact List.mem_singleton.mpr rfl

theorem claim_C6_witness :
    ((0 : Int) ≤ 1000 ∧ (1000 : Int) < 360000000) ∧
    parseSRT (serializeSRT [⟨1, 1000, 1000, "Hi"⟩]) = [⟨1, 1000, 1000, "Hi"⟩] :=
  ⟨⟨by decide, by decide⟩, (claim_C6_amended 1000 (by decide) (by decide)).1⟩

end DualSubs
